import Mathlib

/-!
# PARAMCOR: parameter variation and correlation from a trial population

A shallow embedding of `paramcor` (src/DEV_MA/PARAMCOR.CPP).

* `double` values are modelled by an arbitrary linearly ordered field `α`
  (the theorems that need square roots are stated over `ℝ` with `Real.sqrt`);
* every `double *` / `int *` buffer is a flat memory `Nat → α`, read with the
  same index expression the C code uses (`hessian[j*nparams+k]` is
  `hessian (j * nparams + k)`) and written with `Function.update`;
* every counted `for` loop is `forRange lo hi body`, which runs `body`
  for `lo, lo+1, ..., hi-1` in that order on an explicit state;
* values left uninitialised by the C code (`malloc` buffers, `best_val`,
  `rscale`) are parameters of the definitions.
-/

namespace Paramcor

open Function

/-! ## Loops -/

/-- Runs `body i` for `n` consecutive values of `i`, starting at `i`. -/
def forLoop {σ : Type*} (body : Nat → σ → σ) : Nat → Nat → σ → σ
  | 0, _, s => s
  | n + 1, i, s => forLoop body n (i + 1) (body i s)

/-- The loop `for (i = lo; i < hi; i++) s = body i s`. -/
def forRange {σ : Type*} (lo hi : Nat) (body : Nat → σ → σ) (s : σ) : σ :=
  forLoop body (hi - lo) lo s

/-! ## Sizes (lines 32-46) -/

/-- Number of coefficients of the quadratic model:
`ncoefs = nparams + nparams * (nparams + 1) / 2 + 1`. -/
def ncoefs (nparams : Nat) : Nat :=
  nparams + nparams * (nparams + 1) / 2 + 1

/-- Number of individuals kept: `nc_kept = (int) (1.5 * ncoefs)`, then
`if (nc_kept > ncases) nc_kept = ncases`.  The product `1.5 * ncoefs` is
exact, and the cast to `int` drops its fractional part. -/
def nc_kept (ncases nparams : Nat) : Nat :=
  let kept := ⌊(1.5 : ℚ) * (ncoefs nparams : ℚ)⌋₊
  if kept > ncases then ncases else kept

/-- The size of the neighbourhood in the words of the specification:
`K = min(N, round(1.5 * C))`, with `round` rounding to the nearest integer
(halves upward, so that `round(22.5) = 23`). -/
def nc_kept_spec (ncases nparams : Nat) : Nat :=
  min ncases (round ((1.5 : ℚ) * (ncoefs nparams : ℚ))).toNat

/-! ## Best individual (lines 93-101) -/

/-- The objective of trial `i`: `pptr[nparams]` with
`pptr = data + i * (nparams+1)`. -/
def objective {α : Type*} (nparams : Nat) (data : Nat → α) (i : Nat) : α :=
  data (i * (nparams + 1) + nparams)

/-- The scan for the best individual.  The state is `(ibest, best_val)`;
`init` is the uninitialised content of the two variables. -/
def findBest {α : Type*} [LinearOrder α] (ncases nparams : Nat) (data : Nat → α)
    (init : Nat × α) : Nat × α :=
  forRange 0 ncases (fun i s =>
    if i = 0 ∨ data (i * (nparams + 1) + nparams) > s.2 then
      (i, data (i * (nparams + 1) + nparams))
    else s) init

/-! ## Design matrix (lines 132-147) -/

/-- The loop `for (k=j ; k<nparams ; k++)` of lines 140-143: writes the
products `d * d2` through the moving pointer.  The state is `(aptr, a)`, with
`aptr` an offset into the matrix storage `a`. -/
def designProducts {α : Type*} [Ring α] (nparams : Nat) (pptr best : Nat → α) (j : Nat)
    (d : α) (s : Nat × (Nat → α)) : Nat × (Nat → α) :=
  forRange j nparams (fun k s =>
    let d2 := pptr k - best k
    (s.1 + 1, update s.2 s.1 (d * d2))) s

/-- The body of the loop over kept individuals, for the design matrix only
(lines 137-145): writes one row through the moving pointer `aptr`. -/
def designRow {α : Type*} [Ring α] (nparams : Nat) (pptr best : Nat → α)
    (s : Nat × (Nat → α)) : Nat × (Nat → α) :=
  let s1 := forRange 0 nparams (fun j s =>
    let d := pptr j - best j
    designProducts nparams pptr best j d (s.1 + 1, update s.2 s.1 d)) s
  (s1.1 + 1, update s1.2 s1.1 1)

/-- State of the design-matrix fill: the moving pointer `aptr`, the matrix
storage `sptr->a` and the right-hand side `sptr->b`. -/
structure Design (α : Type*) where
  /-- Offset of `aptr` from `sptr->a`. -/
  aptr : Nat
  /-- Content of `sptr->a`. -/
  a : Nat → α
  /-- Content of `sptr->b`. -/
  b : Nat → α

/-- The loop `for (i=0 ; i<nc_kept ; i++)` that fills the design matrix and
the right-hand side.  `iwork` is the index array left by the distance sort. -/
def designFill {α : Type*} [Ring α] (kept nparams : Nat) (data : Nat → α)
    (iwork : Nat → Nat) (ibest : Nat) (a0 b0 : Nat → α) : Design α :=
  forRange 0 kept (fun i s =>
    let pptr := fun j => data (iwork i * (nparams + 1) + j)
    let best := fun j => data (ibest * (nparams + 1) + j)
    let r := designRow nparams pptr best (s.aptr, s.a)
    { aptr := r.1, a := r.2, b := update s.b i (best nparams - pptr nparams) })
    { aptr := 0, a := a0, b := b0 }

/-! ## Hessian (lines 173-232) -/

/-- The body of the inner loop of the unpacking (lines 177-182).  The state
is `(cptr, hessian)`, with `cptr` an offset into `coefs`. -/
def unpackPair {α : Type*} [Ring α] (nparams : Nat) (coefs : Nat → α) (j k : Nat)
    (s : Nat × (Nat → α)) : Nat × (Nat → α) :=
  let h1 := update s.2 (j * nparams + k) (coefs s.1)
  let h2 :=
    if k = j then update h1 (j * nparams + k) (h1 (j * nparams + k) * 2)
    else update h1 (k * nparams + j) (coefs s.1)
  (s.1 + 1, h2)

/-- Unpacking of the Hessian from the coefficients (lines 173-184); `h0` is
the uninitialised Hessian buffer. -/
def hessianUnpack {α : Type*} [Ring α] (nparams : Nat) (coefs : Nat → α)
    (h0 : Nat → α) : Nat × (Nat → α) :=
  forRange 0 nparams (fun j s =>
    forRange j nparams (unpackPair nparams coefs j) (s.1 + 1, s.2)) (0, h0)

/-- The body of the inner loop of pass 1 (line 207):
`hessian[j*nparams+k] = hessian[k*nparams+j] = 0.0`. -/
def zeroPair {α : Type*} [Zero α] (nparams j k : Nat) (h : Nat → α) : Nat → α :=
  update (update h (k * nparams + j) 0) (j * nparams + k) 0

/-- Regularization pass 1 (lines 204-209): a diagonal below `1.e-10` is
zeroed together with `hessian[j][k]` and `hessian[k][j]` for `k = j..nparams-1`. -/
def diagRepair {α : Type*} [LinearOrderedField α] (nparams : Nat) (h : Nat → α) :
    Nat → α :=
  forRange 0 nparams (fun j h =>
    if h (j * nparams + j) < 1e-10 then forRange j nparams (zeroPair nparams j) h
    else h) h

/-- The body of the inner loop of pass 2 (lines 221-230) for the pair
`(j, k)`; `d` is the diagonal `hessian[j][j]` read before the inner loop. -/
def clampPair {α : Type*} [LinearOrderedField α] (sqrt : α → α) (nparams j : Nat)
    (d : α) (k : Nat) (h : Nat → α) : Nat → α :=
  let d2 := h (k * nparams + k)
  let limit := 0.99999 * sqrt (d * d2)
  let h :=
    if h (j * nparams + k) > limit then
      update (update h (j * nparams + k) limit) (k * nparams + j) limit
    else h
  if h (j * nparams + k) < -limit then
    update (update h (j * nparams + k) (-limit)) (k * nparams + j) (-limit)
  else h

/-- Regularization pass 2 (lines 218-232): each off-diagonal pair is limited
to `0.99999 * sqrt (d * d2)` in magnitude. -/
def offDiagClamp {α : Type*} [LinearOrderedField α] (sqrt : α → α) (nparams : Nat)
    (h : Nat → α) : Nat → α :=
  forRange 0 (nparams - 1) (fun j h =>
    forRange (j + 1) nparams (clampPair sqrt nparams j (h (j * nparams + j))) h) h

/-- Both regularization passes, in program order. -/
def regularize {α : Type*} [LinearOrderedField α] (sqrt : α → α) (nparams : Nat)
    (h : Nat → α) : Nat → α :=
  offDiagClamp sqrt nparams (diagRepair nparams h)

/-! ## Generalized inverse (lines 272-281) -/

/-- The innermost loop: sums `evect[j][i] * evect[k][i] / evals[i]` over
the `i` with `evals[i] > 1.e-8`. -/
def invSum {α : Type*} [LinearOrderedField α] (nparams : Nat) (evals evect : Nat → α)
    (j k : Nat) : α :=
  forRange 0 nparams (fun i sum =>
    if evals i > 1e-8 then
      sum + evect (j * nparams + i) * evect (k * nparams + i) / evals i
    else sum) 0

/-- The store of line 279:
`hessian[j*nparams+k] = hessian[k*nparams+j] = sum`. -/
def storePair {α : Type*} (nparams j k : Nat) (sum : α) (h : Nat → α) : Nat → α :=
  update (update h (k * nparams + j) sum) (j * nparams + k) sum

/-- The generalized inverse, written over the Hessian buffer `h`. -/
def genInverse {α : Type*} [LinearOrderedField α] (nparams : Nat)
    (evals evect : Nat → α) (h : Nat → α) : Nat → α :=
  forRange 0 nparams (fun j h =>
    forRange j nparams (fun k h =>
      storePair nparams j k (invSum nparams evals evect j k) h) h) h

/-! ## Variation and correlation (lines 305-360) -/

/-- The value `d` of lines 306-309, 338-341 and 343-346: the square root of
a positive diagonal, else zero. -/
def diagRoot {α : Type*} [LinearOrderedField α] (sqrt : α → α) (nparams : Nat)
    (inv : Nat → α) (i : Nat) : α :=
  if inv (i * nparams + i) > 0 then sqrt (inv (i * nparams + i)) else 0

/-- The scaling loop of lines 305-312; `rscale0` is the uninitialised
content of `rscale`. -/
def rscaleScan {α : Type*} [LinearOrderedField α] (sqrt : α → α) (nparams : Nat)
    (inv : Nat → α) (rscale0 : α) : α :=
  forRange 0 nparams (fun i rscale =>
    let d := diagRoot sqrt nparams inv i
    if i = 0 ∨ d > rscale then d else rscale) rscale0

/-- A quotient that records a zero divisor as `none`. -/
def checkedDiv {α : Type*} [LinearOrderedField α] (x y : α) : Option α :=
  if y = 0 then none else some (x / y)

/-- The variation printed for parameter `i` (lines 322-329); `none` would be
a division by zero. -/
def variation {α : Type*} [LinearOrderedField α] (sqrt : α → α) (nparams : Nat)
    (inv : Nat → α) (rscale0 : α) (i : Nat) : Option α :=
  if inv (i * nparams + i) > 0 then
    checkedDiv (sqrt (inv (i * nparams + i))) (rscaleScan sqrt nparams inv rscale0)
  else some 0

/-- The correlation printed in row `i`, column `k` (lines 336-358); `none`
is the undetermined entry, printed as dashes. -/
def correlation {α : Type*} [LinearOrderedField α] (sqrt : α → α) (nparams : Nat)
    (inv : Nat → α) (i k : Nat) : Option α :=
  let d := diagRoot sqrt nparams inv i
  let d2 := diagRoot sqrt nparams inv k
  if d * d2 > 0 then
    let corr := inv (i * nparams + k) / (d * d2)
    let corr := if corr > 1 then 1 else corr
    let corr := if corr < -1 then -1 else corr
    some corr
  else none

/-! ## Sensitivity directions (lines 370-399) -/

/-- The loop `for (k=nparams-1 ; k>0 ; k--) if (evals[k] > 0.0) break ;`
entered with the given value of `k`: the value of `k` when the loop is left. -/
def scanDown {α : Type*} [LinearOrderedField α] (evals : Nat → α) : Nat → Nat
  | 0 => 0
  | k + 1 => if evals (k + 1) > 0 then k + 1 else scanDown evals k

/-- The value of `k` after the loop of lines 373-376. -/
def sensitivityIndex {α : Type*} [LinearOrderedField α] (nparams : Nat) (evals : Nat → α) :
    Nat :=
  scanDown evals (nparams - 1)

/-- The scaling loop of lines 386-393, from `lscale = rscale = 0.0`.  The
state is `(lscale, rscale)`. -/
def sensitivityScales {α : Type*} [LinearOrderedField α] (nparams : Nat) (evect : Nat → α)
    (k : Nat) : α × α :=
  forRange 0 nparams (fun i s =>
    (if |evect (i * nparams)| > s.1 then |evect (i * nparams)| else s.1,
     if |evect (i * nparams + k)| > s.2 then |evect (i * nparams + k)| else s.2)) (0, 0)

/-- The table of lines 370-399: `none` when the code jumps to `FINISH`
without printing it, else the pair `(Max, Min)` printed for each parameter `i`,
`evect[i*nparams] / lscale` and `evect[i*nparams+k] / rscale` (a quotient is
`none` on a zero divisor). -/
def sensitivityTable {α : Type*} [LinearOrderedField α] (nparams : Nat)
    (evals evect : Nat → α) : Option (Nat → Option α × Option α) :=
  if nparams < 2 then none
  else
    let k := sensitivityIndex nparams evals
    if k = 0 then none
    else
      let s := sensitivityScales nparams evect k
      some (fun i =>
        (checkedDiv (evect (i * nparams)) s.1, checkedDiv (evect (i * nparams + k)) s.2))

/-! ## Control flow and return status (lines 29-30, 52-85, 401-411) -/

/-- Outcome of the acquisitions of lines 52-61: `true` for a pointer that is
not `NULL`, `sptr_ok` for the flag `sptr->ok`. -/
structure Resources where
  /-- Outcome of `new SingularValueDecomp`. -/
  sptr : Bool
  /-- The flag `sptr->ok`. -/
  sptr_ok : Bool
  /-- Outcome of the `malloc` for `coefs`. -/
  coefs : Bool
  /-- Outcome of the `malloc` for `hessian`. -/
  hessian : Bool
  /-- Outcome of the `malloc` for `evals`. -/
  evals : Bool
  /-- Outcome of the `malloc` for `evect`. -/
  evect : Bool
  /-- Outcome of the `malloc` for `work1`. -/
  work1 : Bool
  /-- Outcome of the `malloc` for `dwork`. -/
  dwork : Bool
  /-- Outcome of the `malloc` for `iwork`. -/
  iwork : Bool
  /-- Outcome of `fopen_s` (the file was opened). -/
  fp : Bool

/-- The parts of the report, in the order `paramcor` prints them. -/
inductive ReportPart where
  | coefficients
  | hessianBefore
  | hessianAfter
  | eigenstructure
  | inverse
  | variationCorrelation
  | sensitivity
  deriving DecidableEq

/-- What a call of `paramcor` leaves behind. -/
structure Outcome where
  /-- The returned `int`. -/
  status : Int
  /-- The acquisitions of lines 52-61 (buffers, solver, report file) were
  attempted. -/
  acquired : Bool
  /-- The parts written to the report file. -/
  report : List ReportPart
  deriving DecidableEq

/-- The test of lines 63-65. -/
def acquisitionFailed (res : Resources) : Bool :=
  !res.sptr || !res.sptr_ok || !res.coefs || !res.hessian || !res.evals || !res.evect
    || !res.work1 || !res.dwork || !res.iwork || !res.fp

/-- The control flow of `paramcor`: the guard of lines 29-30, the abort of
lines 63-85, and the completed analysis ending at line 411.  `res` is the
outcome of the acquisitions and `evals` the eigenvalues left by `evec_rs`; the
numbers printed in each part are those of the definitions above. -/
def paramcor {α : Type*} [LinearOrderedField α] (nparams : Int) (res : Resources)
    (evals evect : Nat → α) : Outcome :=
  if nparams < 2 then { status := 1, acquired := false, report := [] }
  else if acquisitionFailed res then { status := 1, acquired := true, report := [] }
  else
    { status := 0
      acquired := true
      report :=
        [.coefficients, .hessianBefore, .hessianAfter, .eigenstructure, .inverse,
          .variationCorrelation]
        ++ (if (sensitivityTable nparams.toNat evals evect).isSome then [.sensitivity]
            else []) }

/-! ## Vocabulary of the statements -/

/-- The `nparams` by `nparams` matrix stored in `h` is symmetric:
`h[j][k] = h[k][j]` for all `j`, `k`. -/
def IsSymm {α : Type*} (nparams : Nat) (h : Nat → α) : Prop :=
  ∀ j k, j < nparams → k < nparams → h (j * nparams + k) = h (k * nparams + j)

/-- The value left by the two tests of lines 223-230 on an entry `v` with
limit `lim`. -/
def clampVal {α : Type*} [LinearOrderedField α] (lim v : α) : α :=
  if (if v > lim then lim else v) < -lim then -lim else (if v > lim then lim else v)

/-- The limit `0.99999 * sqrt (d * d2)` of pass 2 for the entry `(a, b)`,
from the diagonals of `h`. -/
def clampLimit {α : Type*} [LinearOrderedField α] (sqrt : α → α) (nparams : Nat)
    (h : Nat → α) (a b : Nat) : α :=
  0.99999 * sqrt (h (min a b * nparams + min a b) * h (max a b * nparams + max a b))

/-- Column of the linear term of parameter `j` in a design row. -/
def linCol (nparams j : Nat) : Nat :=
  j * (nparams + 1) - j * (j - 1) / 2

/-- Column of the product of the deviations `j` and `k`, `j ≤ k`, in a
design row. -/
def quadCol (nparams j k : Nat) : Nat :=
  linCol nparams j + 1 + (k - j)

/-- The Hessian entry `(a, b)` read off the coefficients: the coefficient of
the product of the two deviations, doubled on the diagonal. -/
def unpackedEntry {α : Type*} [Ring α] (nparams : Nat) (coefs : Nat → α) (a b : Nat) : α :=
  if a = b then coefs (quadCol nparams (min a b) (max a b)) * 2
  else coefs (quadCol nparams (min a b) (max a b))

/-- Number of strictly positive eigenvalues among `evals[0..nparams-1]`. -/
def positiveCount {α : Type*} [LinearOrderedField α] (nparams : Nat) (evals : Nat → α) : Nat :=
  ((Finset.range nparams).filter (fun i => 0 < evals i)).card

/-- Index `k` holds the smallest strictly positive eigenvalue. -/
def IsSmallestPositive {α : Type*} [LinearOrderedField α] (nparams : Nat) (evals : Nat → α)
    (k : Nat) : Prop :=
  k < nparams ∧ 0 < evals k ∧ ∀ i, i < nparams → 0 < evals i → evals k ≤ evals i

/-- Index `m` holds the overall largest eigenvalue. -/
def IsLargest {α : Type*} [LinearOrderedField α] (nparams : Nat) (evals : Nat → α)
    (m : Nat) : Prop :=
  m < nparams ∧ ∀ i, i < nparams → evals i ≤ evals m

/-- The `Max` column of the table `t` is column `m` of `evect`, each entry
divided by some scale. -/
def ReportsMaxColumn {α : Type*} [LinearOrderedField α] (nparams : Nat) (evect : Nat → α)
    (t : Nat → Option α × Option α) (m : Nat) : Prop :=
  ∀ i, i < nparams → ∃ scale, (t i).1 = checkedDiv (evect (i * nparams + m)) scale

/-! ## Loop reasoning -/

theorem forLoop_succ_last {σ : Type*} (body : Nat → σ → σ) (n i : Nat) (s : σ) :
    forLoop body (n + 1) i s = body (i + n) (forLoop body n i s) := by
  induction n generalizing i s with
  | zero => simp [forLoop]
  | succ n ih =>
    rw [forLoop, ih (i + 1) (body i s), forLoop]
    have e : i + 1 + n = i + (n + 1) := by omega
    rw [e]

theorem forRange_self {σ : Type*} (lo : Nat) (body : Nat → σ → σ) (s : σ) :
    forRange lo lo body s = s := by
  simp [forRange, forLoop]

theorem forRange_succ {σ : Type*} (lo hi : Nat) (h : lo ≤ hi) (body : Nat → σ → σ) (s : σ) :
    forRange lo (hi + 1) body s = body hi (forRange lo hi body s) := by
  unfold forRange
  have e : hi + 1 - lo = (hi - lo) + 1 := by omega
  rw [e, forLoop_succ_last]
  congr 2
  omega

/-- Invariant rule for a counted loop. -/
theorem forRange_inv {σ : Type*} (Inv : Nat → σ → Prop) (lo hi : Nat) (h : lo ≤ hi)
    (body : Nat → σ → σ) (s : σ) (h0 : Inv lo s)
    (hstep : ∀ i t, lo ≤ i → i < hi → Inv i t → Inv (i + 1) (body i t)) :
    Inv hi (forRange lo hi body s) := by
  induction hi, h using Nat.le_induction with
  | base => rw [forRange_self]; exact h0
  | succ n hn ih =>
    rw [forRange_succ lo n hn]
    exact hstep n _ hn (Nat.lt_succ_self n)
      (ih (fun i t hi hlt => hstep i t hi (Nat.lt_succ_of_lt hlt)))

theorem forRange_of_ge {σ : Type*} (lo hi : Nat) (h : hi ≤ lo) (body : Nat → σ → σ) (s : σ) :
    forRange lo hi body s = s := by
  unfold forRange
  rw [Nat.sub_eq_zero_of_le h]
  rfl

/-! ## Sizes -/

theorem truncated_product (c : Nat) : ⌊(1.5 : ℚ) * (c : ℚ)⌋₊ = 3 * c / 2 := by
  have e : (1.5 : ℚ) * (c : ℚ) = ((3 * c : Nat) : ℚ) / ((2 : Nat) : ℚ) := by
    push_cast
    norm_num
    ring
  rw [e, Nat.floor_div_eq_div]

theorem nc_kept_eq (ncases nparams : Nat) :
    nc_kept ncases nparams = min ncases (3 * ncoefs nparams / 2) := by
  unfold nc_kept
  simp only [truncated_product]
  split_ifs with h
  · exact (Nat.min_eq_left (Nat.le_of_lt h)).symm
  · exact (Nat.min_eq_right (Nat.le_of_not_lt h)).symm

/-- C5, as stated, fails: with four parameters there are 15 coefficients and
the code keeps `(int) 22.5 = 22` of 100 individuals, where rounding to the
nearest integer gives 23. -/
theorem nc_kept_not_rounded :
    ncoefs 4 = 15 ∧ nc_kept 100 4 = 22 ∧ nc_kept_spec 100 4 = 23 := by
  have hc : ncoefs 4 = 15 := by decide
  refine ⟨hc, ?_, ?_⟩
  · rw [nc_kept_eq, hc]
    decide
  · unfold nc_kept_spec
    rw [hc]
    have e : round ((1.5 : ℚ) * ((15 : Nat) : ℚ)) = 23 := by
      rw [round_eq, Int.floor_eq_iff]
      constructor <;> norm_num
    rw [e]
    decide

/-- C5, amended: the number of individuals kept is `min(N, floor(1.5 * C))`
with `C = P + P(P+1)/2 + 1`; the product `1.5 * C` is cut to an integer
(`3 * C / 2` in integer division), not rounded to the nearest one. -/
theorem nc_kept_truncates (ncases nparams : Nat) :
    nc_kept ncases nparams
      = min ncases (3 * (nparams + nparams * (nparams + 1) / 2 + 1) / 2) :=
  nc_kept_eq ncases nparams

/-! ## Best individual -/

/-- C6: for a population of at least one trial, the index found by the scan
is in range, its objective is maximal, and every earlier trial has a strictly
smaller objective (the first maximal trial wins). -/
theorem findBest_first_max {α : Type*} [LinearOrder α] (ncases nparams : Nat)
    (data : Nat → α) (init : Nat × α) (hN : 1 ≤ ncases) :
    (findBest ncases nparams data init).1 < ncases ∧
    (∀ i, i < ncases → objective nparams data i
        ≤ objective nparams data (findBest ncases nparams data init).1) ∧
    (∀ i, i < (findBest ncases nparams data init).1 → objective nparams data i
        < objective nparams data (findBest ncases nparams data init).1) := by
  have key := forRange_inv
    (fun n (s : Nat × α) => n = 0 ∨
      (s.1 < n ∧ s.2 = objective nparams data s.1 ∧
        (∀ i, i < n → objective nparams data i ≤ objective nparams data s.1) ∧
        (∀ i, i < s.1 → objective nparams data i < objective nparams data s.1)))
    0 ncases (Nat.zero_le _)
    (fun i s =>
      if i = 0 ∨ data (i * (nparams + 1) + nparams) > s.2 then
        (i, data (i * (nparams + 1) + nparams))
      else s) init (Or.inl rfl) ?_
  · rcases key with h | ⟨h1, -, h3, h4⟩
    · omega
    · exact ⟨h1, h3, h4⟩
  · intro i t _ _ hinv
    right
    by_cases hc : i = 0 ∨ data (i * (nparams + 1) + nparams) > t.2
    · simp only [if_pos hc]
      refine ⟨Nat.lt_succ_self i, rfl, ?_, ?_⟩
      · intro m hm
        rcases Nat.lt_succ_iff_lt_or_eq.mp hm with hlt | heq
        · rcases hinv with h0 | ⟨_, h2, h3, _⟩
          · omega
          · rcases hc with h0 | hgt
            · omega
            · have := h3 m hlt
              rw [← h2] at this
              exact le_of_lt (lt_of_le_of_lt this hgt)
        · rw [heq]
      · intro m hm
        rcases hinv with h0 | ⟨_, h2, h3, _⟩
        · omega
        · rcases hc with h0 | hgt
          · omega
          · have := h3 m hm
            rw [← h2] at this
            exact lt_of_le_of_lt this hgt
    · simp only [if_neg hc]
      push_neg at hc
      rcases hinv with h0 | ⟨h1, h2, h3, h4⟩
      · exact absurd h0 hc.1
      · refine ⟨Nat.lt_succ_of_lt h1, h2, ?_, h4⟩
        intro m hm
        rcases Nat.lt_succ_iff_lt_or_eq.mp hm with hlt | heq
        · exact h3 m hlt
        · rw [heq, ← h2]
          exact hc.2

/-- Witness for C6: three trials of two parameters with objectives 5, 7, 7. -/
theorem findBest_first_max_witness :
    (1 : Nat) ≤ 3 ∧
    ((findBest 3 2 (fun x => [1, 2, 5, 0, 1, 7, 3, 3, 7].getD x (0 : Int)) (0, 0)).1 < 3 ∧
    (∀ i, i < 3 → objective 2 (fun x => [1, 2, 5, 0, 1, 7, 3, 3, 7].getD x (0 : Int)) i
        ≤ objective 2 (fun x => [1, 2, 5, 0, 1, 7, 3, 3, 7].getD x (0 : Int))
            (findBest 3 2 (fun x => [1, 2, 5, 0, 1, 7, 3, 3, 7].getD x (0 : Int)) (0, 0)).1) ∧
    (∀ i, i < (findBest 3 2 (fun x => [1, 2, 5, 0, 1, 7, 3, 3, 7].getD x (0 : Int)) (0, 0)).1 →
      objective 2 (fun x => [1, 2, 5, 0, 1, 7, 3, 3, 7].getD x (0 : Int)) i
        < objective 2 (fun x => [1, 2, 5, 0, 1, 7, 3, 3, 7].getD x (0 : Int))
            (findBest 3 2 (fun x => [1, 2, 5, 0, 1, 7, 3, 3, 7].getD x (0 : Int)) (0, 0)).1)) :=
  ⟨by decide, findBest_first_max 3 2 _ (0, 0) (by decide)⟩

/-! ## Flat indexing -/

theorem flat_eq_iff {P j k j' k' : Nat} (hk : k < P) (hk' : k' < P) :
    j * P + k = j' * P + k' ↔ j = j' ∧ k = k' := by
  constructor
  · intro h
    rcases Nat.lt_trichotomy j j' with hlt | heq | hgt
    · have := Nat.mul_le_mul_right P (Nat.succ_le_of_lt hlt)
      rw [Nat.succ_mul] at this
      omega
    · subst heq
      exact ⟨rfl, by omega⟩
    · have := Nat.mul_le_mul_right P (Nat.succ_le_of_lt hgt)
      rw [Nat.succ_mul] at this
      omega
  · rintro ⟨rfl, rfl⟩
    rfl

/-! ## Regularization pass 1 -/

theorem zeroPair_apply {α : Type*} [Zero α] (P j k : Nat) (h : Nat → α) (x : Nat) :
    zeroPair P j k h x = if x = j * P + k ∨ x = k * P + j then 0 else h x := by
  unfold zeroPair
  simp only [update_apply]
  by_cases h1 : x = j * P + k
  · simp [h1]
  · by_cases h2 : x = k * P + j
    · simp [h2]
    · simp [h1, h2]

theorem zeroRow_apply {α : Type*} [Zero α] (P j : Nat) (hj : j ≤ P) (h : Nat → α) (x : Nat) :
    ((∃ k, j ≤ k ∧ k < P ∧ (x = j * P + k ∨ x = k * P + j)) →
      forRange j P (zeroPair P j) h x = 0) ∧
    ((¬ ∃ k, j ≤ k ∧ k < P ∧ (x = j * P + k ∨ x = k * P + j)) →
      forRange j P (zeroPair P j) h x = h x) := by
  refine forRange_inv
    (fun n (s : Nat → α) =>
      ((∃ k, j ≤ k ∧ k < n ∧ (x = j * P + k ∨ x = k * P + j)) → s x = 0) ∧
      ((¬ ∃ k, j ≤ k ∧ k < n ∧ (x = j * P + k ∨ x = k * P + j)) → s x = h x))
    j P hj (zeroPair P j) h ?_ ?_
  · refine ⟨?_, fun _ => rfl⟩
    rintro ⟨k, h1, h2, -⟩
    omega
  · intro i t hi _ hinv
    simp only [] at hinv ⊢
    rw [zeroPair_apply]
    by_cases hx : x = j * P + i ∨ x = i * P + j
    · rw [if_pos hx]
      refine ⟨fun _ => rfl, fun hn => ?_⟩
      exact absurd ⟨i, hi, Nat.lt_succ_self i, hx⟩ hn
    · rw [if_neg hx]
      constructor
      · rintro ⟨k, h1, h2, h3⟩
        rcases Nat.lt_succ_iff_lt_or_eq.mp h2 with hlt | heq
        · exact hinv.1 ⟨k, h1, hlt, h3⟩
        · subst heq
          exact absurd h3 hx
      · intro hn
        apply hinv.2
        rintro ⟨k, h1, h2, h3⟩
        exact hn ⟨k, h1, Nat.lt_succ_of_lt h2, h3⟩

/-- Pass 1, entry by entry: `h[a][b]` is zeroed exactly when the diagonal of
the smaller of the two indices is below `1.e-10`. -/
theorem diagRepair_apply {α : Type*} [LinearOrderedField α] (P : Nat) (h : Nat → α)
    (a b : Nat) (ha : a < P) (hb : b < P) :
    diagRepair P h (a * P + b)
      = if h (min a b * P + min a b) < 1e-10 then 0 else h (a * P + b) := by
  have key := forRange_inv
    (fun n (s : Nat → α) => ∀ a b, a < P → b < P → s (a * P + b)
      = if min a b < n ∧ h (min a b * P + min a b) < 1e-10 then 0 else h (a * P + b))
    0 P (Nat.zero_le _)
    (fun j h =>
      if h (j * P + j) < 1e-10 then forRange j P (zeroPair P j) h else h) h ?_ ?_
  · have := key a b ha hb
    have hm : min a b < P := lt_of_le_of_lt (min_le_left a b) ha
    simp only [hm, true_and] at this
    exact this
  · intro a b _ _
    simp
  · intro j t _ hj hinv a b ha hb
    have hjj : t (j * P + j) = h (j * P + j) := by
      rw [hinv j j hj hj]
      simp
    simp only [hjj]
    by_cases hd : h (j * P + j) < 1e-10
    · rw [if_pos hd]
      by_cases hm : min a b = j
      · have hex : ∃ k, j ≤ k ∧ k < P ∧ (a * P + b = j * P + k ∨ a * P + b = k * P + j) := by
          rcases le_total a b with hab | hab
          · rw [min_eq_left hab] at hm
            subst hm
            exact ⟨b, hab, hb, Or.inl rfl⟩
          · rw [min_eq_right hab] at hm
            subst hm
            exact ⟨a, hab, ha, Or.inr rfl⟩
        rw [(zeroRow_apply P j (le_of_lt hj) t _).1 hex, if_pos]
        rw [hm]
        exact ⟨Nat.lt_succ_self j, hd⟩
      · have hex : ¬ ∃ k, j ≤ k ∧ k < P ∧ (a * P + b = j * P + k ∨ a * P + b = k * P + j) := by
          rintro ⟨k, h1, h2, h3 | h3⟩
          · rw [flat_eq_iff hb h2] at h3
            obtain ⟨rfl, rfl⟩ := h3
            exact hm (min_eq_left h1)
          · rw [flat_eq_iff hb hj] at h3
            obtain ⟨rfl, rfl⟩ := h3
            exact hm (min_eq_right h1)
        rw [(zeroRow_apply P j (le_of_lt hj) t _).2 hex, hinv a b ha hb]
        have e : min a b < j + 1 ↔ min a b < j :=
          ⟨fun hlt => lt_of_le_of_ne (Nat.lt_succ_iff.mp hlt) hm, Nat.lt_succ_of_lt⟩
        simp only [e]
    · rw [if_neg hd, hinv a b ha hb]
      by_cases hm : min a b = j
      · rw [hm, if_neg, if_neg]
        · rintro ⟨-, h2⟩
          exact hd h2
        · rintro ⟨h1, -⟩
          omega
      · have e : min a b < j + 1 ↔ min a b < j :=
          ⟨fun hlt => lt_of_le_of_ne (Nat.lt_succ_iff.mp hlt) hm, Nat.lt_succ_of_lt⟩
        simp only [e]

theorem diagRepair_symm {α : Type*} [LinearOrderedField α] (P : Nat) (h : Nat → α)
    (hs : IsSymm P h) : IsSymm P (diagRepair P h) := by
  intro j k hj hk
  rw [diagRepair_apply P h j k hj hk, diagRepair_apply P h k j hk hj, min_comm k j,
    hs j k hj hk]

theorem diagRepair_diag {α : Type*} [LinearOrderedField α] (P : Nat) (h : Nat → α)
    (j : Nat) (hj : j < P) :
    diagRepair P h (j * P + j) = 0 ∨ (1e-10 : α) ≤ diagRepair P h (j * P + j) := by
  rw [diagRepair_apply P h j j hj hj, min_self]
  by_cases hd : h (j * P + j) < 1e-10
  · left
    rw [if_pos hd]
  · right
    rw [if_neg hd]
    exact not_lt.mp hd

/-! ## Regularization pass 2 -/

theorem clampPair_apply {α : Type*} [LinearOrderedField α] (sqrt : α → α) (P j : Nat)
    (d : α) (k : Nat) (h : Nat → α) (x : Nat) (hs : h (k * P + j) = h (j * P + k)) :
    clampPair sqrt P j d k h x
      = if x = j * P + k ∨ x = k * P + j then
          clampVal (0.99999 * sqrt (d * h (k * P + k))) (h (j * P + k))
        else h x := by
  dsimp only [clampPair, clampVal]
  generalize 0.99999 * sqrt (d * h (k * P + k)) = L
  have hupd : ∀ v, update (update h (j * P + k) v) (k * P + j) v (j * P + k) = v := by
    intro v
    simp [update_apply]
  have hupx : ∀ v (g : Nat → α), update (update g (j * P + k) v) (k * P + j) v x
      = if x = j * P + k ∨ x = k * P + j then v else g x := by
    intro v g
    simp only [update_apply]
    split_ifs <;> simp_all
  by_cases h1 : h (j * P + k) > L
  · simp only [if_pos h1, hupd]
    by_cases h2 : L < -L
    · simp only [if_pos h2, hupx]
      split_ifs <;> simp_all
    · simp only [if_neg h2, hupx]
  · simp only [if_neg h1]
    by_cases h2 : h (j * P + k) < -L
    · simp only [if_pos h2, hupx]
    · simp only [if_neg h2]
      split_ifs with hx
      · rcases hx with rfl | rfl
        · rfl
        · exact hs
      · rfl

theorem min_max_pair {a b j k : Nat} (hjk : j < k) :
    (min a b = j ∧ max a b = k) ↔ ((a = j ∧ b = k) ∨ (a = k ∧ b = j)) := by
  rcases le_total a b with hab | hab
  · rw [min_eq_left hab, max_eq_right hab]
    constructor
    · exact fun h => Or.inl h
    · rintro (h | ⟨h1, h2⟩)
      · exact h
      · omega
  · rw [min_eq_right hab, max_eq_left hab]
    constructor
    · exact fun h => Or.inr ⟨h.2, h.1⟩
    · rintro (⟨h1, h2⟩ | h)
      · omega
      · exact ⟨h.2, h.1⟩

theorem clampRow_apply {α : Type*} [LinearOrderedField α] (sqrt : α → α) (P : Nat)
    (h : Nat → α) (hs : IsSymm P h) (j : Nat) (hj : j < P) (t : Nat → α)
    (ht : ∀ a b, a < P → b < P → t (a * P + b)
      = if a ≠ b ∧ min a b < j then clampVal (clampLimit sqrt P h a b) (h (a * P + b))
        else h (a * P + b))
    (a b : Nat) (ha : a < P) (hb : b < P) :
    forRange (j + 1) P (clampPair sqrt P j (t (j * P + j))) t (a * P + b)
      = if a ≠ b ∧ min a b < j + 1 then clampVal (clampLimit sqrt P h a b) (h (a * P + b))
        else h (a * P + b) := by
  have hd : t (j * P + j) = h (j * P + j) := by
    rw [ht j j hj hj]
    simp
  have key := forRange_inv
    (fun n (s : Nat → α) => ∀ a b, a < P → b < P → s (a * P + b)
      = if a ≠ b ∧ (min a b < j ∨ (min a b = j ∧ max a b < n)) then
          clampVal (clampLimit sqrt P h a b) (h (a * P + b))
        else h (a * P + b))
    (j + 1) P hj (clampPair sqrt P j (t (j * P + j))) t ?_ ?_
  · rw [key a b ha hb]
    have e : (a ≠ b ∧ (min a b < j ∨ (min a b = j ∧ max a b < P)))
        ↔ (a ≠ b ∧ min a b < j + 1) := by
      have : max a b < P := max_lt ha hb
      constructor
      · rintro ⟨h1, h2 | h2⟩
        · exact ⟨h1, Nat.lt_succ_of_lt h2⟩
        · exact ⟨h1, by omega⟩
      · rintro ⟨h1, h2⟩
        refine ⟨h1, ?_⟩
        rcases Nat.lt_succ_iff_lt_or_eq.mp h2 with h3 | h3
        · exact Or.inl h3
        · exact Or.inr ⟨h3, this⟩
    simp only [e]
  · intro a b ha hb
    rw [ht a b ha hb]
    have e : (a ≠ b ∧ (min a b < j ∨ (min a b = j ∧ max a b < j + 1)))
        ↔ (a ≠ b ∧ min a b < j) := by
      constructor
      · rintro ⟨h1, h2 | ⟨h2, h3⟩⟩
        · exact ⟨h1, h2⟩
        · exfalso
          rcases le_total a b with hab | hab
          · rw [min_eq_left hab] at h2
            rw [max_eq_right hab] at h3
            omega
          · rw [min_eq_right hab] at h2
            rw [max_eq_left hab] at h3
            omega
      · rintro ⟨h1, h2⟩
        exact ⟨h1, Or.inl h2⟩
    simp only [e]
  · intro k s hk hkP hinv a b ha hb
    have hjk : j < k := hk
    have hkk : s (k * P + k) = h (k * P + k) := by
      rw [hinv k k hkP hkP]
      simp
    have hsjk : s (j * P + k) = h (j * P + k) := by
      rw [hinv j k hj hkP, if_neg]
      rintro ⟨-, h2 | ⟨-, h2⟩⟩
      · rw [min_eq_left (le_of_lt hjk)] at h2
        omega
      · rw [max_eq_right (le_of_lt hjk)] at h2
        omega
    have hskj : s (k * P + j) = h (k * P + j) := by
      rw [hinv k j hkP hj, if_neg]
      rintro ⟨-, h2 | ⟨-, h2⟩⟩
      · rw [min_eq_right (le_of_lt hjk)] at h2
        omega
      · rw [max_eq_left (le_of_lt hjk)] at h2
        omega
    rw [clampPair_apply sqrt P j _ k s _ (by rw [hskj, hsjk, hs k j hkP hj]), hd, hkk, hsjk]
    simp only [flat_eq_iff hb hkP, flat_eq_iff hb hj]
    by_cases hp : min a b = j ∧ max a b = k
    · have hne : a ≠ b := by
        rintro rfl
        rw [min_self, max_self] at hp
        omega
      rw [if_pos ((min_max_pair hjk).mp hp), if_pos ⟨hne, Or.inr ⟨hp.1, by omega⟩⟩]
      have hv : h (a * P + b) = h (j * P + k) := by
        rcases (min_max_pair hjk).mp hp with ⟨rfl, rfl⟩ | ⟨rfl, rfl⟩
        · rfl
        · exact hs a b ha hb
      rw [hv]
      unfold clampLimit
      rw [hp.1, hp.2]
    · rw [if_neg (fun hc => hp ((min_max_pair hjk).mpr hc)), hinv a b ha hb]
      have e : (a ≠ b ∧ (min a b < j ∨ (min a b = j ∧ max a b < k + 1)))
          ↔ (a ≠ b ∧ (min a b < j ∨ (min a b = j ∧ max a b < k))) := by
        constructor
        · rintro ⟨h1, h2 | ⟨h2, h3⟩⟩
          · exact ⟨h1, Or.inl h2⟩
          · refine ⟨h1, Or.inr ⟨h2, ?_⟩⟩
            rcases Nat.lt_succ_iff_lt_or_eq.mp h3 with h4 | h4
            · exact h4
            · exact absurd ⟨h2, h4⟩ hp
        · rintro ⟨h1, h2 | ⟨h2, h3⟩⟩
          · exact ⟨h1, Or.inl h2⟩
          · exact ⟨h1, Or.inr ⟨h2, Nat.lt_succ_of_lt h3⟩⟩
      simp only [e]

/-- Pass 2, entry by entry, on a symmetric matrix: the diagonal is kept and
every off-diagonal entry is clamped with the limit built from its two
diagonals. -/
theorem offDiagClamp_apply {α : Type*} [LinearOrderedField α] (sqrt : α → α) (P : Nat)
    (h : Nat → α) (hs : IsSymm P h) (a b : Nat) (ha : a < P) (hb : b < P) :
    offDiagClamp sqrt P h (a * P + b)
      = if a ≠ b then clampVal (clampLimit sqrt P h a b) (h (a * P + b))
        else h (a * P + b) := by
  have key := forRange_inv
    (fun n (s : Nat → α) => ∀ a b, a < P → b < P → s (a * P + b)
      = if a ≠ b ∧ min a b < n then clampVal (clampLimit sqrt P h a b) (h (a * P + b))
        else h (a * P + b))
    0 (P - 1) (Nat.zero_le _)
    (fun j h => forRange (j + 1) P (clampPair sqrt P j (h (j * P + j))) h) h ?_ ?_
  · have := key a b ha hb
    rw [offDiagClamp, this]
    by_cases hne : a ≠ b
    · have hm : min a b < P - 1 := by
        rcases le_total a b with hab | hab
        · rw [min_eq_left hab]
          omega
        · rw [min_eq_right hab]
          omega
      rw [if_pos ⟨hne, hm⟩, if_pos hne]
    · rw [if_neg (fun hc => hne hc.1), if_neg hne]
  · intro a b _ _
    simp
  · intro j t _ hj hinv a b ha hb
    exact clampRow_apply sqrt P h hs j (by omega) t hinv a b ha hb

/-! ## Column arithmetic -/

theorem triangle_succ (j : Nat) : (j + 1) * (j + 1 - 1) / 2 = j * (j - 1) / 2 + j := by
  cases j with
  | zero => rfl
  | succ n =>
    have e : (n + 1 + 1) * (n + 1 + 1 - 1) = (n + 1) * (n + 1 - 1) + 2 * (n + 1) := by
      simp only [Nat.add_sub_cancel]
      ring
    rw [e, Nat.add_mul_div_left _ _ (by decide : 0 < 2)]

theorem triangle_le (P j : Nat) (hj : j ≤ P) : j * (j - 1) / 2 ≤ j * (P + 1) := by
  calc j * (j - 1) / 2 ≤ j * (j - 1) := Nat.div_le_self _ _
    _ ≤ j * (P + 1) := Nat.mul_le_mul_left j (by omega)

theorem linCol_zero (P : Nat) : linCol P 0 = 0 := by
  simp [linCol]

theorem linCol_succ (P j : Nat) (hj : j ≤ P) :
    linCol P (j + 1) = linCol P j + 1 + (P - j) := by
  unfold linCol
  rw [triangle_succ]
  have hb := triangle_le P j hj
  have e : (j + 1) * (P + 1) = j * (P + 1) + P + 1 := by ring
  rw [e]
  omega

theorem linCol_last (P : Nat) : linCol P P + 1 = ncoefs P := by
  unfold linCol ncoefs
  have hb := triangle_le P P (le_refl P)
  have ht : P * (P + 1) / 2 = P * (P - 1) / 2 + P := by
    have := triangle_succ P
    rw [Nat.add_sub_cancel, Nat.mul_comm] at this
    exact this
  have hev : P * (P + 1) = 2 * (P * (P + 1) / 2) := by
    have hmod : P * (P + 1) % 2 = 0 := Nat.even_iff.mp (Nat.even_mul_succ_self P)
    omega
  omega

/-! ## Unpacking of the Hessian -/

theorem unpackPair_fst {α : Type*} [Ring α] (P : Nat) (c : Nat → α) (j k : Nat)
    (s : Nat × (Nat → α)) : (unpackPair P c j k s).1 = s.1 + 1 := rfl

theorem unpackPair_snd {α : Type*} [Ring α] (P : Nat) (c : Nat → α) (j k : Nat)
    (s : Nat × (Nat → α)) (x : Nat) :
    (unpackPair P c j k s).2 x
      = if x = j * P + k ∨ x = k * P + j then (if k = j then c s.1 * 2 else c s.1)
        else s.2 x := by
  dsimp only [unpackPair]
  by_cases hkj : k = j
  · subst hkj
    simp only [if_true, update_apply, or_self]
    split_ifs <;> simp_all
  · simp only [if_neg hkj, update_apply]
    split_ifs <;> simp_all

theorem unpackRow_apply {α : Type*} [Ring α] (P : Nat) (c : Nat → α) (j : Nat) (hj : j < P)
    (t : Nat → α) :
    (forRange j P (unpackPair P c j) (linCol P j + 1, t)).1 = linCol P (j + 1) ∧
    ∀ a b, a < P → b < P →
      (forRange j P (unpackPair P c j) (linCol P j + 1, t)).2 (a * P + b)
        = if min a b = j then unpackedEntry P c a b else t (a * P + b) := by
  have key := forRange_inv
    (fun n (s : Nat × (Nat → α)) => s.1 = linCol P j + 1 + (n - j) ∧
      ∀ a b, a < P → b < P → s.2 (a * P + b)
        = if min a b = j ∧ max a b < n then unpackedEntry P c a b else t (a * P + b))
    j P (le_of_lt hj) (unpackPair P c j) (linCol P j + 1, t) ?_ ?_
  · refine ⟨?_, ?_⟩
    · rw [key.1, linCol_succ P j (le_of_lt hj)]
    · intro a b ha hb
      rw [key.2 a b ha hb]
      have : max a b < P := max_lt ha hb
      simp only [this, and_true]
  · refine ⟨by simp, ?_⟩
    intro a b _ _
    rw [if_neg]
    rintro ⟨h1, h2⟩
    have := min_le_max (a := a) (b := b)
    omega
  · intro k s hk hkP hinv
    refine ⟨?_, ?_⟩
    · rw [unpackPair_fst, hinv.1]
      omega
    · intro a b ha hb
      rw [unpackPair_snd]
      simp only [flat_eq_iff hb hkP, flat_eq_iff hb hj]
      by_cases hp : min a b = j ∧ max a b = k
      · have hor : (a = j ∧ b = k) ∨ (a = k ∧ b = j) := by
          rcases le_total a b with hab | hab
          · rw [min_eq_left hab, max_eq_right hab] at hp
            exact Or.inl hp
          · rw [min_eq_right hab, max_eq_left hab] at hp
            exact Or.inr ⟨hp.2, hp.1⟩
        have hR : min a b = j ∧ max a b < k + 1 := ⟨hp.1, by omega⟩
        have hab : a = b ↔ k = j := by
          rcases hor with ⟨rfl, rfl⟩ | ⟨rfl, rfl⟩
          · exact eq_comm
          · exact Iff.rfl
        rw [if_pos hor, if_pos hR, hinv.1]
        unfold unpackedEntry quadCol
        simp only [hp.1, hp.2, hab]
      · have hor : ¬ ((a = j ∧ b = k) ∨ (a = k ∧ b = j)) := by
          rintro (⟨rfl, rfl⟩ | ⟨rfl, rfl⟩)
          · exact hp ⟨min_eq_left hk, max_eq_right hk⟩
          · exact hp ⟨min_eq_right hk, max_eq_left hk⟩
        rw [if_neg hor, hinv.2 a b ha hb]
        have e : (min a b = j ∧ max a b < k + 1) ↔ (min a b = j ∧ max a b < k) := by
          constructor
          · rintro ⟨h1, h2⟩
            refine ⟨h1, ?_⟩
            rcases Nat.lt_succ_iff_lt_or_eq.mp h2 with h3 | h3
            · exact h3
            · exact absurd ⟨h1, h3⟩ hp
          · rintro ⟨h1, h2⟩
            exact ⟨h1, Nat.lt_succ_of_lt h2⟩
        simp only [e]

/-- The unpacking, entry by entry: whatever the buffer held, `H[a][b]` is the
coefficient of the product of deviations `min a b` and `max a b`, doubled on
the diagonal; the coefficient pointer ends on the constant. -/
theorem hessianUnpack_apply {α : Type*} [Ring α] (P : Nat) (c : Nat → α) (h0 : Nat → α) :
    (hessianUnpack P c h0).1 = linCol P P ∧
    ∀ a b, a < P → b < P → (hessianUnpack P c h0).2 (a * P + b) = unpackedEntry P c a b := by
  have key := forRange_inv
    (fun n (s : Nat × (Nat → α)) => s.1 = linCol P n ∧
      ∀ a b, a < P → b < P → s.2 (a * P + b)
        = if min a b < n then unpackedEntry P c a b else h0 (a * P + b))
    0 P (Nat.zero_le _)
    (fun j s => forRange j P (unpackPair P c j) (s.1 + 1, s.2)) (0, h0) ?_ ?_
  · refine ⟨key.1, ?_⟩
    intro a b ha hb
    have := key.2 a b ha hb
    rw [if_pos (lt_of_le_of_lt (min_le_left a b) ha)] at this
    exact this
  · exact ⟨(linCol_zero P).symm, fun a b _ _ => by simp⟩
  · intro j s _ hj hinv
    simp only []
    rw [hinv.1]
    have hrow := unpackRow_apply P c j hj s.2
    refine ⟨hrow.1, ?_⟩
    intro a b ha hb
    rw [hrow.2 a b ha hb]
    by_cases hm : min a b = j
    · rw [if_pos hm, if_pos (by omega)]
    · rw [if_neg hm, hinv.2 a b ha hb]
      have e : min a b < j + 1 ↔ min a b < j :=
        ⟨fun hlt => lt_of_le_of_ne (Nat.lt_succ_iff.mp hlt) hm, Nat.lt_succ_of_lt⟩
      simp only [e]

theorem hessianUnpack_symm {α : Type*} [Ring α] (P : Nat) (c : Nat → α) (h0 : Nat → α) :
    IsSymm P (hessianUnpack P c h0).2 := by
  intro j k hj hk
  rw [(hessianUnpack_apply P c h0).2 j k hj hk, (hessianUnpack_apply P c h0).2 k j hk hj]
  unfold unpackedEntry
  rw [min_comm k j, max_comm k j]
  have e : (k = j) = (j = k) := propext eq_comm
  simp only [e]


/-! ## Design rows -/

theorem linCol_mono (P : Nat) (i j : Nat) (hij : i ≤ j) (hj : j ≤ P) :
    linCol P i ≤ linCol P j := by
  induction j, hij using Nat.le_induction with
  | base => exact le_refl _
  | succ n hn ih =>
    rw [linCol_succ P n (by omega)]
    have := ih (by omega)
    omega

theorem quadCol_lt (P j k : Nat) (hjk : j ≤ k) (hk : k < P) :
    quadCol P j k < linCol P (j + 1) := by
  unfold quadCol
  rw [linCol_succ P j (by omega)]
  omega

theorem designProducts_spec {α : Type*} [Ring α] (P : Nat) (pptr best : Nat → α) (j : Nat)
    (hj : j ≤ P) (d : α) (q : Nat) (m : Nat → α) :
    (designProducts P pptr best j d (q, m)).1 = q + (P - j) ∧
    (∀ x, x < q ∨ q + (P - j) ≤ x → (designProducts P pptr best j d (q, m)).2 x = m x) ∧
    (∀ k, j ≤ k → k < P →
      (designProducts P pptr best j d (q, m)).2 (q + (k - j)) = d * (pptr k - best k)) := by
  refine forRange_inv
    (fun n (s : Nat × (Nat → α)) => s.1 = q + (n - j) ∧
      (∀ x, x < q ∨ q + (n - j) ≤ x → s.2 x = m x) ∧
      (∀ k, j ≤ k → k < n → s.2 (q + (k - j)) = d * (pptr k - best k)))
    j P hj _ (q, m) ?_ ?_
  · refine ⟨by simp, fun x _ => rfl, ?_⟩
    intro k h1 h2
    omega
  · intro n s hn hnP hinv
    obtain ⟨h1, h2, h3⟩ := hinv
    refine ⟨?_, ?_, ?_⟩
    · simp only [h1]
      omega
    · intro x hx
      simp only [h1, update_apply]
      rw [if_neg (by omega)]
      exact h2 x (by omega)
    · intro k hk hkn
      simp only [h1, update_apply]
      rcases Nat.lt_succ_iff_lt_or_eq.mp hkn with hlt | heq
      · rw [if_neg (by omega)]
        exact h3 k hk hlt
      · subst heq
        rw [if_pos rfl]

theorem designRow_spec {α : Type*} [Ring α] (P : Nat) (pptr best : Nat → α) (p : Nat)
    (a : Nat → α) :
    (designRow P pptr best (p, a)).1 = p + ncoefs P ∧
    (∀ x, x < p ∨ p + ncoefs P ≤ x → (designRow P pptr best (p, a)).2 x = a x) ∧
    (∀ j, j < P → (designRow P pptr best (p, a)).2 (p + linCol P j) = pptr j - best j) ∧
    (∀ j k, j ≤ k → k < P → (designRow P pptr best (p, a)).2 (p + quadCol P j k)
      = (pptr j - best j) * (pptr k - best k)) ∧
    (designRow P pptr best (p, a)).2 (p + linCol P P) = 1 := by
  have key := forRange_inv
    (fun n (s : Nat × (Nat → α)) => s.1 = p + linCol P n ∧
      (∀ x, x < p ∨ p + linCol P n ≤ x → s.2 x = a x) ∧
      (∀ j, j < n → s.2 (p + linCol P j) = pptr j - best j) ∧
      (∀ j k, j < n → j ≤ k → k < P → s.2 (p + quadCol P j k)
        = (pptr j - best j) * (pptr k - best k)))
    0 P (Nat.zero_le _)
    (fun j s => designProducts P pptr best j (pptr j - best j)
      (s.1 + 1, update s.2 s.1 (pptr j - best j))) (p, a) ?_ ?_
  · obtain ⟨h1, h2, h3, h4⟩ := key
    have hC := linCol_last P
    have hlast : ∀ j, j ≤ P → linCol P j ≤ linCol P P := fun j hj => linCol_mono P j P hj (le_refl P)
    dsimp only [designRow]
    refine ⟨?_, ?_, ?_, ?_, ?_⟩
    · rw [h1]
      omega
    · intro x hx
      rw [h1, update_apply, if_neg (by omega)]
      exact h2 x (by omega)
    · intro j hj
      have := linCol_mono P (j + 1) P hj (le_refl P)
      have := linCol_succ P j (le_of_lt hj)
      rw [h1, update_apply, if_neg (by omega)]
      exact h3 j hj
    · intro j k hjk hk
      have := linCol_mono P (j + 1) P (by omega) (le_refl P)
      have := quadCol_lt P j k hjk hk
      rw [h1, update_apply, if_neg (by omega)]
      exact h4 j k (by omega) hjk hk
    · rw [h1, update_apply, if_pos rfl]
  · refine ⟨by simp [linCol_zero], ?_, ?_, ?_⟩
    · intro x _
      rfl
    · intro j hj
      omega
    · intro j k hj
      omega
  · intro n s _ hnP hinv
    obtain ⟨h1, h2, h3, h4⟩ := hinv
    have hsucc := linCol_succ P n (le_of_lt hnP)
    obtain ⟨g1, g2, g3⟩ := designProducts_spec P pptr best n (le_of_lt hnP) (pptr n - best n)
      (s.1 + 1) (update s.2 s.1 (pptr n - best n))
    refine ⟨?_, ?_, ?_, ?_⟩
    · beta_reduce
      rw [g1, h1, hsucc]
      omega
    · intro x hx
      beta_reduce
      rw [g2 x (by omega), update_apply, if_neg (by omega)]
      exact h2 x (by omega)
    · intro j hj
      beta_reduce
      rcases Nat.lt_succ_iff_lt_or_eq.mp hj with hlt | heq
      · have := linCol_mono P (j + 1) n hlt (le_of_lt hnP)
        have := linCol_succ P j (by omega)
        rw [g2 _ (by omega), update_apply, if_neg (by omega)]
        exact h3 j hlt
      · subst heq
        rw [g2 _ (by omega), update_apply, if_pos h1.symm]
    · intro j k hj hjk hk
      beta_reduce
      rcases Nat.lt_succ_iff_lt_or_eq.mp hj with hlt | heq
      · have := linCol_mono P (j + 1) n hlt (le_of_lt hnP)
        have := quadCol_lt P j k hjk hk
        rw [g2 _ (by omega), update_apply, if_neg (by omega)]
        exact h4 j k hlt hjk hk
      · subst heq
        have e : p + quadCol P j k = s.1 + 1 + (k - j) := by
          unfold quadCol
          omega
        rw [e]
        exact g3 k hjk hk

theorem designFill_spec {α : Type*} [Ring α] (K P : Nat) (data : Nat → α) (iwork : Nat → Nat)
    (ibest : Nat) (a0 b0 : Nat → α) :
    (designFill K P data iwork ibest a0 b0).aptr = K * ncoefs P ∧
    (∀ x, K * ncoefs P ≤ x → (designFill K P data iwork ibest a0 b0).a x = a0 x) ∧
    (∀ i, i < K →
      (∀ j, j < P → (designFill K P data iwork ibest a0 b0).a (i * ncoefs P + linCol P j)
        = data (iwork i * (P + 1) + j) - data (ibest * (P + 1) + j)) ∧
      (∀ j k, j ≤ k → k < P →
        (designFill K P data iwork ibest a0 b0).a (i * ncoefs P + quadCol P j k)
          = (data (iwork i * (P + 1) + j) - data (ibest * (P + 1) + j))
            * (data (iwork i * (P + 1) + k) - data (ibest * (P + 1) + k))) ∧
      (designFill K P data iwork ibest a0 b0).a (i * ncoefs P + linCol P P) = 1) := by
  refine forRange_inv
    (fun n (s : Design α) => s.aptr = n * ncoefs P ∧
      (∀ x, n * ncoefs P ≤ x → s.a x = a0 x) ∧
      (∀ i, i < n →
        (∀ j, j < P → s.a (i * ncoefs P + linCol P j)
          = data (iwork i * (P + 1) + j) - data (ibest * (P + 1) + j)) ∧
        (∀ j k, j ≤ k → k < P → s.a (i * ncoefs P + quadCol P j k)
          = (data (iwork i * (P + 1) + j) - data (ibest * (P + 1) + j))
            * (data (iwork i * (P + 1) + k) - data (ibest * (P + 1) + k))) ∧
        s.a (i * ncoefs P + linCol P P) = 1))
    0 K (Nat.zero_le _) _ _ ?_ ?_
  · refine ⟨by simp, fun x _ => rfl, ?_⟩
    intro i hi
    omega
  · intro n s _ _ hinv
    obtain ⟨h1, h2, h3⟩ := hinv
    obtain ⟨g1, g2, g3, g4, g5⟩ := designRow_spec P
      (fun j => data (iwork n * (P + 1) + j)) (fun j => data (ibest * (P + 1) + j)) s.aptr s.a
    have hC := linCol_last P
    have hnext : (n + 1) * ncoefs P = n * ncoefs P + ncoefs P := by ring
    refine ⟨?_, ?_, ?_⟩
    · dsimp only
      rw [g1, h1, hnext]
    · intro x hx
      dsimp only
      rw [g2 x (by omega)]
      exact h2 x (by omega)
    · intro i hi
      dsimp only
      rcases Nat.lt_succ_iff_lt_or_eq.mp hi with hlt | heq
      · have hrow : (i + 1) * ncoefs P ≤ n * ncoefs P := Nat.mul_le_mul_right _ hlt
        have hi1 : (i + 1) * ncoefs P = i * ncoefs P + ncoefs P := by ring
        obtain ⟨r1, r2, r3⟩ := h3 i hlt
        refine ⟨?_, ?_, ?_⟩
        · intro j hj
          have := linCol_mono P j P (le_of_lt hj) (le_refl P)
          rw [g2 _ (by omega)]
          exact r1 j hj
        · intro j k hjk hk
          have := quadCol_lt P j k hjk hk
          have := linCol_mono P (j + 1) P (by omega) (le_refl P)
          rw [g2 _ (by omega)]
          exact r2 j k hjk hk
        · rw [g2 _ (by omega)]
          exact r3
      · subst heq
        rw [← h1]
        exact ⟨g3, g4, g5⟩

theorem column_cases (P n : Nat) (hn : n ≤ P) (c : Nat) (hc : c < linCol P n) :
    (∃ j, j < n ∧ c = linCol P j) ∨ (∃ j k, j < n ∧ j ≤ k ∧ k < P ∧ c = quadCol P j k) := by
  induction n with
  | zero =>
    rw [linCol_zero] at hc
    omega
  | succ n ih =>
    rw [linCol_succ P n (by omega)] at hc
    by_cases h1 : c < linCol P n
    · rcases ih (by omega) h1 with ⟨j, hj, e⟩ | ⟨j, k, hj, hjk, hk, e⟩
      · exact Or.inl ⟨j, by omega, e⟩
      · exact Or.inr ⟨j, k, by omega, hjk, hk, e⟩
    · by_cases h2 : c = linCol P n
      · exact Or.inl ⟨n, by omega, h2⟩
      · refine Or.inr ⟨n, n + (c - (linCol P n + 1)), by omega, by omega, by omega, ?_⟩
        unfold quadCol
        omega


/-- C7: the design-matrix fill writes `kept` rows of exactly
`ncoefs nparams = nparams + nparams * (nparams + 1) / 2 + 1` entries each, one
after the other from offset 0 and nothing beyond.  Row `i` holds the deviation
of parameter `j` at column `j * (nparams + 1) - j * (j - 1) / 2`, the product
of deviations `j` and `k` (`j ≤ k`) at that column `+ 1 + (k - j)`, and the
constant 1 at the last column; every column of a row is one of these. -/
theorem design_matrix_layout {α : Type*} [Ring α] (kept nparams : Nat) (data : Nat → α)
    (iwork : Nat → Nat) (ibest : Nat) (a0 b0 : Nat → α) :
    (designFill kept nparams data iwork ibest a0 b0).aptr = kept * ncoefs nparams ∧
    (∀ x, kept * ncoefs nparams ≤ x →
      (designFill kept nparams data iwork ibest a0 b0).a x = a0 x) ∧
    (∀ i, i < kept →
      (∀ j, j < nparams →
        (designFill kept nparams data iwork ibest a0 b0).a
            (i * ncoefs nparams + (j * (nparams + 1) - j * (j - 1) / 2))
          = data (iwork i * (nparams + 1) + j) - data (ibest * (nparams + 1) + j)) ∧
      (∀ j k, j ≤ k → k < nparams →
        (designFill kept nparams data iwork ibest a0 b0).a
            (i * ncoefs nparams + (j * (nparams + 1) - j * (j - 1) / 2 + 1 + (k - j)))
          = (data (iwork i * (nparams + 1) + j) - data (ibest * (nparams + 1) + j))
            * (data (iwork i * (nparams + 1) + k) - data (ibest * (nparams + 1) + k))) ∧
      (designFill kept nparams data iwork ibest a0 b0).a
          (i * ncoefs nparams + (ncoefs nparams - 1)) = 1) ∧
    (∀ c, c < ncoefs nparams →
      c = ncoefs nparams - 1 ∨
      (∃ j, j < nparams ∧ c = j * (nparams + 1) - j * (j - 1) / 2) ∨
      (∃ j k, j ≤ k ∧ k < nparams ∧ c = j * (nparams + 1) - j * (j - 1) / 2 + 1 + (k - j))) := by
  obtain ⟨h1, h2, h3⟩ := designFill_spec kept nparams data iwork ibest a0 b0
  have hC := linCol_last nparams
  refine ⟨h1, h2, ?_, ?_⟩
  · intro i hi
    obtain ⟨r1, r2, r3⟩ := h3 i hi
    refine ⟨r1, r2, ?_⟩
    have e : ncoefs nparams - 1 = linCol nparams nparams := by omega
    rw [e]
    exact r3
  · intro c hc
    by_cases hlast : c = ncoefs nparams - 1
    · exact Or.inl hlast
    · right
      rcases column_cases nparams nparams (le_refl _) c (by omega) with
        ⟨j, hj, e⟩ | ⟨j, k, _, hjk, hk, e⟩
      · exact Or.inl ⟨j, hj, e⟩
      · exact Or.inr ⟨j, k, hjk, hk, e⟩

/-! ## The quadratic form of the unpacked Hessian -/

theorem sum_blocks {α : Type*} [AddCommMonoid α] (P : Nat) (f : Nat → α) (n : Nat)
    (hn : n ≤ P) :
    ∑ x in Finset.range (linCol P n), f x
      = ∑ j in Finset.range n,
          (f (linCol P j) + ∑ t in Finset.range (P - j), f (quadCol P j (j + t))) := by
  induction n with
  | zero => simp [linCol_zero]
  | succ n ih =>
    rw [linCol_succ P n (by omega), Finset.sum_range_add, Finset.sum_range_succ,
      Finset.sum_range_succ, ih (by omega)]
    simp only [quadCol, Nat.add_sub_cancel_left, add_assoc]

theorem sum_symm_pairs {α : Type*} [CommRing α] (g : Nat → Nat → α)
    (hg : ∀ j k, g j k = g k j) (n : Nat) :
    ∑ j in Finset.range n, ∑ k in Finset.range n, g j k
      = ∑ j in Finset.range n, (g j j + 2 * ∑ k in Finset.Ico (j + 1) n, g j k) := by
  induction n with
  | zero => simp
  | succ n ih =>
    have e0 : ∑ j in Finset.range n, ∑ k in Finset.range (n + 1), g j k
        = ∑ j in Finset.range n, ∑ k in Finset.range n, g j k
          + ∑ j in Finset.range n, g j n := by
      rw [← Finset.sum_add_distrib]
      exact Finset.sum_congr rfl (fun j _ => Finset.sum_range_succ _ _)
    have e1 : ∑ j in Finset.range n, (g j j + 2 * ∑ k in Finset.Ico (j + 1) (n + 1), g j k)
        = ∑ j in Finset.range n, (g j j + 2 * ∑ k in Finset.Ico (j + 1) n, g j k)
          + 2 * ∑ j in Finset.range n, g j n := by
      rw [Finset.mul_sum, ← Finset.sum_add_distrib]
      apply Finset.sum_congr rfl
      intro j hj
      rw [Finset.mem_range] at hj
      rw [Finset.sum_Ico_succ_top (by omega)]
      ring
    have e2 : ∑ k in Finset.range n, g n k = ∑ j in Finset.range n, g j n :=
      Finset.sum_congr rfl (fun k _ => hg n k)
    rw [Finset.sum_range_succ, e0, Finset.sum_range_succ (fun k => g n k) n, e2, ih,
      Finset.sum_range_succ (fun j => g j j + 2 * ∑ k in Finset.Ico (j + 1) (n + 1), g j k) n,
      e1, Finset.Ico_self, Finset.sum_empty]
    ring

theorem unpackedEntry_comm {α : Type*} [Ring α] (P : Nat) (c : Nat → α) (a b : Nat) :
    unpackedEntry P c a b = unpackedEntry P c b a := by
  unfold unpackedEntry
  rw [min_comm b a, max_comm b a]
  have e : (b = a) = (a = b) := propext eq_comm
  simp only [e]

theorem half_quadratic_form {α : Type*} [LinearOrderedField α] (P : Nat) (c d H : Nat → α)
    (hH : ∀ a b, a < P → b < P → H (a * P + b) = unpackedEntry P c a b) :
    (1 / 2) * ∑ j in Finset.range P, ∑ k in Finset.range P, d j * H (j * P + k) * d k
      = ∑ j in Finset.range P, ∑ t in Finset.range (P - j),
          d j * d (j + t) * c (quadCol P j (j + t)) := by
  have e0 : ∑ j in Finset.range P, ∑ k in Finset.range P, d j * H (j * P + k) * d k
      = ∑ j in Finset.range P, ∑ k in Finset.range P, d j * unpackedEntry P c j k * d k := by
    apply Finset.sum_congr rfl
    intro j hj
    apply Finset.sum_congr rfl
    intro k hk
    rw [hH j k (Finset.mem_range.mp hj) (Finset.mem_range.mp hk)]
  rw [e0, sum_symm_pairs (fun j k => d j * unpackedEntry P c j k * d k)
    (fun j k => by beta_reduce; rw [unpackedEntry_comm P c j k]; ring), Finset.mul_sum]
  apply Finset.sum_congr rfl
  intro j hj
  rw [Finset.mem_range] at hj
  have hP : P - j = (P - (j + 1)) + 1 := by omega
  rw [Finset.sum_Ico_eq_sum_range, hP, Finset.sum_range_succ']
  have e1 : ∑ k in Finset.range (P - (j + 1)), d j * unpackedEntry P c j (j + 1 + k) * d (j + 1 + k)
      = ∑ k in Finset.range (P - (j + 1)),
          d j * d (j + (k + 1)) * c (quadCol P j (j + (k + 1))) := by
    apply Finset.sum_congr rfl
    intro k _
    have hne : j ≠ j + 1 + k := by omega
    have e : j + (k + 1) = j + 1 + k := by omega
    rw [e]
    unfold unpackedEntry
    rw [if_neg hne, min_eq_left (by omega), max_eq_right (by omega)]
    ring
  rw [e1]
  unfold unpackedEntry
  simp only [if_true, min_self, max_self, Nat.add_zero]
  ring

/-- C1: the unpacking of the Hessian inverts the packing of a design row.
With `d j = pptr j - best j`: the design row holds `d j * d k` (`j ≤ k`) at
column `quadCol nparams j k`, and the Hessian built from `coefs` has
`H[j][k] = H[k][j] = coefs (quadCol nparams j k)` for `j < k` and
`H[j][j] = 2 * coefs (quadCol nparams j j)`; equivalently, the design row
times `coefs` is the constant plus the linear terms plus half the quadratic
form of the Hessian. -/
theorem hessian_unpack_inverts_packing {α : Type*} [LinearOrderedField α] (nparams : Nat)
    (coefs h0 a0 pptr best : Nat → α) :
    (∀ j k, j < k → k < nparams →
      (designRow nparams pptr best (0, a0)).2 (quadCol nparams j k)
        = (pptr j - best j) * (pptr k - best k) ∧
      (hessianUnpack nparams coefs h0).2 (j * nparams + k) = coefs (quadCol nparams j k) ∧
      (hessianUnpack nparams coefs h0).2 (k * nparams + j) = coefs (quadCol nparams j k)) ∧
    (∀ j, j < nparams →
      (designRow nparams pptr best (0, a0)).2 (quadCol nparams j j)
        = (pptr j - best j) * (pptr j - best j) ∧
      (hessianUnpack nparams coefs h0).2 (j * nparams + j)
        = 2 * coefs (quadCol nparams j j)) ∧
    ∑ x in Finset.range (ncoefs nparams), (designRow nparams pptr best (0, a0)).2 x * coefs x
      = coefs (ncoefs nparams - 1)
        + ∑ j in Finset.range nparams, coefs (linCol nparams j) * (pptr j - best j)
        + (1 / 2) * ∑ j in Finset.range nparams, ∑ k in Finset.range nparams,
            (pptr j - best j) * (hessianUnpack nparams coefs h0).2 (j * nparams + k)
              * (pptr k - best k) := by
  obtain ⟨-, -, g3, g4, g5⟩ := designRow_spec nparams pptr best 0 a0
  simp only [Nat.zero_add] at g3 g4 g5
  have hH := (hessianUnpack_apply nparams coefs h0).2
  refine ⟨?_, ?_, ?_⟩
  · intro j k hjk hk
    refine ⟨g4 j k (le_of_lt hjk) hk, ?_, ?_⟩
    · rw [hH j k (by omega) hk]
      unfold unpackedEntry
      rw [if_neg (by omega), min_eq_left (le_of_lt hjk), max_eq_right (le_of_lt hjk)]
    · rw [hH k j hk (by omega)]
      unfold unpackedEntry
      rw [if_neg (by omega), min_eq_right (le_of_lt hjk), max_eq_left (le_of_lt hjk)]
  · intro j hj
    refine ⟨g4 j j (le_refl j) hj, ?_⟩
    rw [hH j j hj hj]
    unfold unpackedEntry
    rw [if_pos rfl, min_self, max_self, mul_comm]
  · rw [half_quadratic_form nparams coefs (fun j => pptr j - best j) _ hH,
      ← linCol_last nparams, Finset.sum_range_succ, Nat.add_sub_cancel, g5,
      sum_blocks nparams _ nparams (le_refl _), Finset.sum_add_distrib]
    have e1 : ∑ j in Finset.range nparams,
        (designRow nparams pptr best (0, a0)).2 (linCol nparams j) * coefs (linCol nparams j)
        = ∑ j in Finset.range nparams, coefs (linCol nparams j) * (pptr j - best j) := by
      apply Finset.sum_congr rfl
      intro j hj
      rw [g3 j (Finset.mem_range.mp hj), mul_comm]
    have e2 : ∑ j in Finset.range nparams, ∑ t in Finset.range (nparams - j),
        (designRow nparams pptr best (0, a0)).2 (quadCol nparams j (j + t))
          * coefs (quadCol nparams j (j + t))
        = ∑ j in Finset.range nparams, ∑ t in Finset.range (nparams - j),
            (pptr j - best j) * (pptr (j + t) - best (j + t))
              * coefs (quadCol nparams j (j + t)) := by
      apply Finset.sum_congr rfl
      intro j hj
      apply Finset.sum_congr rfl
      intro t ht
      rw [Finset.mem_range] at hj ht
      rw [g4 j (j + t) (by omega) (by omega)]
    rw [e1, e2]
    ring

/-! ## Symmetry and bounds of the regularized Hessian -/

theorem clampLimit_comm {α : Type*} [LinearOrderedField α] (sqrt : α → α) (P : Nat)
    (h : Nat → α) (a b : Nat) : clampLimit sqrt P h a b = clampLimit sqrt P h b a := by
  unfold clampLimit
  rw [min_comm a b, max_comm a b]

theorem offDiagClamp_symm {α : Type*} [LinearOrderedField α] (sqrt : α → α) (P : Nat)
    (h : Nat → α) (hs : IsSymm P h) : IsSymm P (offDiagClamp sqrt P h) := by
  intro j k hj hk
  rw [offDiagClamp_apply sqrt P h hs j k hj hk, offDiagClamp_apply sqrt P h hs k j hk hj,
    clampLimit_comm sqrt P h k j, hs k j hk hj]
  by_cases hjk : j = k
  · subst hjk
    simp
  · rw [if_pos hjk, if_pos (Ne.symm hjk)]

theorem clampVal_abs_le {α : Type*} [LinearOrderedField α] (lim v : α) (hl : 0 ≤ lim) :
    |clampVal lim v| ≤ lim := by
  unfold clampVal
  rw [abs_le]
  split_ifs with h1 h2 h3 <;> constructor <;> linarith

/-- C2: the Hessian is exactly symmetric right after it is unpacked from the
coefficients (whatever the buffer held before), after the diagonal repair,
and after both regularization passes. -/
theorem hessian_symmetric {α : Type*} [LinearOrderedField α] (sqrt : α → α) (nparams : Nat)
    (coefs h0 : Nat → α) :
    (∀ j k, j < nparams → k < nparams →
      (hessianUnpack nparams coefs h0).2 (j * nparams + k)
        = (hessianUnpack nparams coefs h0).2 (k * nparams + j)) ∧
    (∀ j k, j < nparams → k < nparams →
      diagRepair nparams (hessianUnpack nparams coefs h0).2 (j * nparams + k)
        = diagRepair nparams (hessianUnpack nparams coefs h0).2 (k * nparams + j)) ∧
    (∀ j k, j < nparams → k < nparams →
      regularize sqrt nparams (hessianUnpack nparams coefs h0).2 (j * nparams + k)
        = regularize sqrt nparams (hessianUnpack nparams coefs h0).2 (k * nparams + j)) :=
  ⟨hessianUnpack_symm nparams coefs h0,
    diagRepair_symm nparams _ (hessianUnpack_symm nparams coefs h0),
    offDiagClamp_symm sqrt nparams _
      (diagRepair_symm nparams _ (hessianUnpack_symm nparams coefs h0))⟩

/-- C3: after both regularization passes of a symmetric Hessian, every
off-diagonal entry is at most `0.99999 * sqrt (H[j][j] * H[k][k])` in
magnitude (in particular when both diagonals are positive); after pass 1
every diagonal is zero or at least `1.e-10`, so every product of two
diagonals whose square root pass 2 takes is non-negative. -/
theorem regularize_offdiag_bound (nparams : Nat) (h : Nat → ℝ) (hs : IsSymm nparams h)
    (j k : Nat) (hj : j < nparams) (hk : k < nparams) (hjk : j ≠ k) :
    |regularize Real.sqrt nparams h (j * nparams + k)|
      ≤ 0.99999 * Real.sqrt (regularize Real.sqrt nparams h (j * nparams + j)
          * regularize Real.sqrt nparams h (k * nparams + k)) ∧
    (∀ m, m < nparams → diagRepair nparams h (m * nparams + m) = 0
        ∨ 1e-10 ≤ diagRepair nparams h (m * nparams + m)) ∧
    (∀ a b, a < nparams → b < nparams →
      0 ≤ diagRepair nparams h (a * nparams + a) * diagRepair nparams h (b * nparams + b)) := by
  have hD := diagRepair_symm nparams h hs
  have hdiag := diagRepair_diag nparams h
  have hnonneg : ∀ m, m < nparams → 0 ≤ diagRepair nparams h (m * nparams + m) := by
    intro m hm
    rcases hdiag m hm with h0 | h1
    · rw [h0]
    · exact le_trans (by norm_num) h1
  refine ⟨?_, hdiag, fun a b ha hb => mul_nonneg (hnonneg a ha) (hnonneg b hb)⟩
  unfold regularize
  rw [offDiagClamp_apply Real.sqrt nparams _ hD j k hj hk, if_pos hjk,
    offDiagClamp_apply Real.sqrt nparams _ hD j j hj hj, if_neg (by simp),
    offDiagClamp_apply Real.sqrt nparams _ hD k k hk hk, if_neg (by simp)]
  have hlim : clampLimit Real.sqrt nparams (diagRepair nparams h) j k
      = 0.99999 * Real.sqrt (diagRepair nparams h (j * nparams + j)
          * diagRepair nparams h (k * nparams + k)) := by
    unfold clampLimit
    rcases le_total j k with hle | hle
    · rw [min_eq_left hle, max_eq_right hle]
    · rw [min_eq_right hle, max_eq_left hle, mul_comm (diagRepair nparams h (k * nparams + k))]
  rw [← hlim]
  apply clampVal_abs_le
  rw [hlim]
  exact mul_nonneg (by norm_num) (Real.sqrt_nonneg _)

theorem isSymm_two_by_two : IsSymm 2 (fun x => [2, 3, 3, 2].getD x (0 : ℝ)) := by
  intro j k hj hk
  interval_cases j <;> interval_cases k <;> rfl

/-- Witness for C3: the symmetric matrix with rows `2 3` and `3 2`. -/
theorem regularize_offdiag_bound_witness :
    |regularize Real.sqrt 2 (fun x => [2, 3, 3, 2].getD x (0 : ℝ)) (0 * 2 + 1)|
      ≤ 0.99999 * Real.sqrt
          (regularize Real.sqrt 2 (fun x => [2, 3, 3, 2].getD x (0 : ℝ)) (0 * 2 + 0)
          * regularize Real.sqrt 2 (fun x => [2, 3, 3, 2].getD x (0 : ℝ)) (1 * 2 + 1)) :=
  (regularize_offdiag_bound 2 (fun x => [2, 3, 3, 2].getD x (0 : ℝ)) isSymm_two_by_two
    0 1 (by decide) (by decide) (by decide)).1

/-- C4 fails on the code: the coefficients `0.5`, `5`, `-0.5` of the three
products unpack to the Hessian with rows `1 5` and `5 -1`; its second diagonal
is below `1.e-10` when pass 1 reaches it, and pass 1 clears only that
diagonal: `H[1][0]` and `H[0][1]` keep the value 5. -/
theorem diagRepair_keeps_lower_entries :
    (hessianUnpack 2 (fun x => [0, 1 / 2, 5, 0, -1 / 2, 0].getD x (0 : ℚ)) (fun _ => 0)).2
        (1 * 2 + 1) < 1e-10 ∧
    diagRepair 2
        (hessianUnpack 2 (fun x => [0, 1 / 2, 5, 0, -1 / 2, 0].getD x (0 : ℚ)) (fun _ => 0)).2
        (1 * 2 + 1) = 0 ∧
    diagRepair 2
        (hessianUnpack 2 (fun x => [0, 1 / 2, 5, 0, -1 / 2, 0].getD x (0 : ℚ)) (fun _ => 0)).2
        (1 * 2 + 0) = 5 ∧
    diagRepair 2
        (hessianUnpack 2 (fun x => [0, 1 / 2, 5, 0, -1 / 2, 0].getD x (0 : ℚ)) (fun _ => 0)).2
        (0 * 2 + 1) = 5 := by
  norm_num [diagRepair, hessianUnpack, unpackPair, forRange, forLoop, zeroPair, update_apply]

/-! ## Generalized inverse -/

theorem invSum_eq {α : Type*} [LinearOrderedField α] (P : Nat) (evals evect : Nat → α)
    (j k : Nat) :
    invSum P evals evect j k
      = ∑ i in Finset.range P,
          if evals i > 1e-8 then evect (j * P + i) * evect (k * P + i) / evals i else 0 := by
  refine forRange_inv
    (fun n (s : α) => s = ∑ i in Finset.range n,
      if evals i > 1e-8 then evect (j * P + i) * evect (k * P + i) / evals i else 0)
    0 P (Nat.zero_le _) _ 0 (by simp) ?_
  intro n s _ _ hinv
  beta_reduce
  rw [Finset.sum_range_succ, ← hinv]
  split_ifs
  · rfl
  · rw [add_zero]

theorem invSum_comm {α : Type*} [LinearOrderedField α] (P : Nat) (evals evect : Nat → α)
    (j k : Nat) : invSum P evals evect j k = invSum P evals evect k j := by
  rw [invSum_eq, invSum_eq]
  apply Finset.sum_congr rfl
  intro i _
  rw [mul_comm (evect (j * P + i))]

theorem storePair_apply {α : Type*} (P j k : Nat) (v : α) (h : Nat → α) (x : Nat) :
    storePair P j k v h x = if x = j * P + k ∨ x = k * P + j then v else h x := by
  unfold storePair
  simp only [update_apply]
  split_ifs <;> simp_all

theorem storeRow_apply {α : Type*} (P : Nat) (val : Nat → α) (j : Nat) (hj : j < P)
    (t : Nat → α) (a b : Nat) (ha : a < P) (hb : b < P) :
    forRange j P (fun k h => storePair P j k (val k) h) t (a * P + b)
      = if min a b = j then val (max a b) else t (a * P + b) := by
  have key := forRange_inv
    (fun n (s : Nat → α) => ∀ a b, a < P → b < P → s (a * P + b)
      = if min a b = j ∧ max a b < n then val (max a b) else t (a * P + b))
    j P (le_of_lt hj) (fun k h => storePair P j k (val k) h) t ?_ ?_
  · rw [key a b ha hb]
    have : max a b < P := max_lt ha hb
    simp only [this, and_true]
  · intro a b _ _
    rw [if_neg]
    rintro ⟨h1, h2⟩
    have := min_le_max (a := a) (b := b)
    omega
  · intro k s hk hkP hinv a b ha hb
    beta_reduce
    rw [storePair_apply]
    simp only [flat_eq_iff hb hkP, flat_eq_iff hb hj]
    by_cases hp : min a b = j ∧ max a b = k
    · have hor : (a = j ∧ b = k) ∨ (a = k ∧ b = j) := by
        rcases le_total a b with hab | hab
        · rw [min_eq_left hab, max_eq_right hab] at hp
          exact Or.inl hp
        · rw [min_eq_right hab, max_eq_left hab] at hp
          exact Or.inr ⟨hp.2, hp.1⟩
      have hR : min a b = j ∧ max a b < k + 1 := ⟨hp.1, by omega⟩
      rw [if_pos hor, if_pos hR, hp.2]
    · have hor : ¬ ((a = j ∧ b = k) ∨ (a = k ∧ b = j)) := by
        rintro (⟨rfl, rfl⟩ | ⟨rfl, rfl⟩)
        · exact hp ⟨min_eq_left hk, max_eq_right hk⟩
        · exact hp ⟨min_eq_right hk, max_eq_left hk⟩
      rw [if_neg hor, hinv a b ha hb]
      have e : (min a b = j ∧ max a b < k + 1) ↔ (min a b = j ∧ max a b < k) := by
        constructor
        · rintro ⟨h1, h2⟩
          refine ⟨h1, ?_⟩
          rcases Nat.lt_succ_iff_lt_or_eq.mp h2 with h3 | h3
          · exact h3
          · exact absurd ⟨h1, h3⟩ hp
        · rintro ⟨h1, h2⟩
          exact ⟨h1, Nat.lt_succ_of_lt h2⟩
      simp only [e]

/-- The generalized inverse, entry by entry: whatever the buffer held, entry
`(a, b)` is the sum of the innermost loop for the pair `(a, b)`. -/
theorem genInverse_apply {α : Type*} [LinearOrderedField α] (P : Nat) (evals evect : Nat → α)
    (h : Nat → α) (a b : Nat) (ha : a < P) (hb : b < P) :
    genInverse P evals evect h (a * P + b) = invSum P evals evect a b := by
  have key := forRange_inv
    (fun n (s : Nat → α) => ∀ a b, a < P → b < P → s (a * P + b)
      = if min a b < n then invSum P evals evect (min a b) (max a b) else h (a * P + b))
    0 P (Nat.zero_le _)
    (fun j h => forRange j P (fun k h => storePair P j k (invSum P evals evect j k) h) h) h
    ?_ ?_
  · have := key a b ha hb
    rw [if_pos (lt_of_le_of_lt (min_le_left a b) ha)] at this
    rw [genInverse, this]
    rcases le_total a b with hab | hab
    · rw [min_eq_left hab, max_eq_right hab]
    · rw [min_eq_right hab, max_eq_left hab, invSum_comm]
  · intro a b _ _
    simp
  · intro j t _ hj hinv a b ha hb
    beta_reduce
    rw [storeRow_apply P (fun k => invSum P evals evect j k) j hj t a b ha hb]
    by_cases hm : min a b = j
    · rw [if_pos hm, if_pos (by omega), hm]
    · rw [if_neg hm, hinv a b ha hb]
      have e : min a b < j + 1 ↔ min a b < j :=
        ⟨fun hlt => lt_of_le_of_ne (Nat.lt_succ_iff.mp hlt) hm, Nat.lt_succ_of_lt⟩
      simp only [e]

theorem orth_rows {α : Type*} [LinearOrderedField α] (P : Nat) (evect : Nat → α)
    (horth : ∀ i i', i < P → i' < P →
      ∑ j in Finset.range P, evect (j * P + i) * evect (j * P + i') = if i = i' then 1 else 0)
    (j k : Nat) (hj : j < P) (hk : k < P) :
    ∑ i in Finset.range P, evect (j * P + i) * evect (k * P + i) = if j = k then 1 else 0 := by
  let M : Matrix (Fin P) (Fin P) α := fun a b => evect (a.1 * P + b.1)
  have h1 : M.transpose * M = 1 := by
    ext a b
    rw [Matrix.mul_apply, Matrix.one_apply]
    simp only [Matrix.transpose_apply, M]
    rw [Fin.sum_univ_eq_sum_range (fun x => evect (x * P + a.1) * evect (x * P + b.1)) P,
      horth a.1 b.1 a.2 b.2]
    simp only [Fin.ext_iff]
  have h2 : M * M.transpose = 1 := Matrix.mul_eq_one_comm.mp h1
  have h3 := congrFun (congrFun h2 ⟨j, hj⟩) ⟨k, hk⟩
  rw [Matrix.mul_apply, Matrix.one_apply] at h3
  simp only [Matrix.transpose_apply, M, Fin.mk.injEq] at h3
  rw [← h3]
  exact (Fin.sum_univ_eq_sum_range (fun x => evect (j * P + x) * evect (k * P + x)) P).symm

theorem inverse_times_hessian {α : Type*} [LinearOrderedField α] (P : Nat)
    (evals evect H inv : Nat → α)
    (horth : ∀ i i', i < P → i' < P →
      ∑ j in Finset.range P, evect (j * P + i) * evect (j * P + i') = if i = i' then 1 else 0)
    (hdec : ∀ j k, j < P → k < P →
      H (j * P + k) = ∑ i in Finset.range P, evect (j * P + i) * evals i * evect (k * P + i))
    (hne : ∀ i, i < P → evals i ≠ 0)
    (hinv : ∀ j k, j < P → k < P →
      inv (j * P + k) = ∑ i in Finset.range P, evect (j * P + i) * evect (k * P + i) / evals i)
    (j k : Nat) (hj : j < P) (hk : k < P) :
    ∑ m in Finset.range P, inv (j * P + m) * H (m * P + k) = if j = k then 1 else 0 := by
  have step : ∑ m in Finset.range P, inv (j * P + m) * H (m * P + k)
      = ∑ i in Finset.range P, evect (j * P + i) * evect (k * P + i) := by
    calc ∑ m in Finset.range P, inv (j * P + m) * H (m * P + k)
        = ∑ m in Finset.range P, ∑ i in Finset.range P, ∑ l in Finset.range P,
            (evect (j * P + i) / evals i * evals l * evect (k * P + l))
              * (evect (m * P + i) * evect (m * P + l)) := by
          apply Finset.sum_congr rfl
          intro m hm
          rw [hinv j m hj (Finset.mem_range.mp hm), hdec m k (Finset.mem_range.mp hm) hk,
            Finset.sum_mul_sum]
          apply Finset.sum_congr rfl
          intro i _
          apply Finset.sum_congr rfl
          intro l _
          ring
      _ = ∑ i in Finset.range P, ∑ l in Finset.range P,
            (evect (j * P + i) / evals i * evals l * evect (k * P + l))
              * ∑ m in Finset.range P, evect (m * P + i) * evect (m * P + l) := by
          rw [Finset.sum_comm]
          apply Finset.sum_congr rfl
          intro i _
          rw [Finset.sum_comm]
          apply Finset.sum_congr rfl
          intro l _
          rw [Finset.mul_sum]
      _ = ∑ i in Finset.range P, evect (j * P + i) * evect (k * P + i) := by
          apply Finset.sum_congr rfl
          intro i hi
          have hi' := Finset.mem_range.mp hi
          have e : ∀ l ∈ Finset.range P,
              (evect (j * P + i) / evals i * evals l * evect (k * P + l))
                * ∑ m in Finset.range P, evect (m * P + i) * evect (m * P + l)
              = if i = l then evect (j * P + i) * evect (k * P + i) else 0 := by
            intro l hl
            rw [horth i l hi' (Finset.mem_range.mp hl)]
            split_ifs with hil
            · subst hil
              have := hne i hi'
              field_simp
            · rw [mul_zero]
          rw [Finset.sum_congr rfl e, Finset.sum_ite_eq, if_pos hi]
  rw [step]
  exact orth_rows P evect horth j k hj hk

/-- C8: round trip of the generalized inverse.  If the columns of `evect` are
orthonormal, `hessian = evect * diag(evals) * evect^T` and every eigenvalue
exceeds `1.e-8`, then the matrix that `paramcor` writes over the Hessian
buffer is `inv[j][k] = sum of evect[j][i] * evect[k][i] / evals[i]` over the
`i` with `evals[i] > 1.e-8`, is symmetric, and `inv * hessian` is the
identity. -/
theorem genInverse_roundtrip {α : Type*} [LinearOrderedField α] (nparams : Nat)
    (evals evect hessian : Nat → α)
    (horth : ∀ i i', i < nparams → i' < nparams →
      ∑ j in Finset.range nparams, evect (j * nparams + i) * evect (j * nparams + i')
        = if i = i' then 1 else 0)
    (hdec : ∀ j k, j < nparams → k < nparams →
      hessian (j * nparams + k)
        = ∑ i in Finset.range nparams,
            evect (j * nparams + i) * evals i * evect (k * nparams + i))
    (hpos : ∀ i, i < nparams → evals i > 1e-8) :
    (∀ j k, j < nparams → k < nparams →
      genInverse nparams evals evect hessian (j * nparams + k)
        = ∑ i in Finset.range nparams,
            if evals i > 1e-8 then
              evect (j * nparams + i) * evect (k * nparams + i) / evals i
            else 0) ∧
    (∀ j k, j < nparams → k < nparams →
      genInverse nparams evals evect hessian (j * nparams + k)
        = genInverse nparams evals evect hessian (k * nparams + j)) ∧
    (∀ j k, j < nparams → k < nparams →
      ∑ m in Finset.range nparams,
          genInverse nparams evals evect hessian (j * nparams + m) * hessian (m * nparams + k)
        = if j = k then 1 else 0) := by
  have hform : ∀ j k, j < nparams → k < nparams →
      genInverse nparams evals evect hessian (j * nparams + k)
        = ∑ i in Finset.range nparams,
            if evals i > 1e-8 then
              evect (j * nparams + i) * evect (k * nparams + i) / evals i
            else 0 := by
    intro j k hj hk
    rw [genInverse_apply nparams evals evect hessian j k hj hk, invSum_eq]
  refine ⟨hform, ?_, ?_⟩
  · intro j k hj hk
    rw [genInverse_apply nparams evals evect hessian j k hj hk,
      genInverse_apply nparams evals evect hessian k j hk hj, invSum_comm]
  · intro j k hj hk
    apply inverse_times_hessian nparams evals evect hessian _ horth hdec ?_ ?_ j k hj hk
    · intro i hi
      have h1 := hpos i hi
      have h2 : (0 : α) < 1e-8 := by norm_num
      exact ne_of_gt (lt_trans h2 h1)
    · intro a b ha hb
      rw [hform a b ha hb]
      apply Finset.sum_congr rfl
      intro i hi
      rw [if_pos (hpos i (Finset.mem_range.mp hi))]

/-- Witness for C8: eigenvectors `(1,0)`, `(0,1)` with eigenvalues 2 and 4;
the first row of `inv * hessian` is `1 0`. -/
theorem genInverse_roundtrip_witness :
    (∑ m in Finset.range 2,
        genInverse 2 (fun i => if i = 0 then (2 : ℚ) else 4)
          (fun x => if x = 0 ∨ x = 3 then (1 : ℚ) else 0)
          (fun x => if x = 0 then (2 : ℚ) else if x = 3 then 4 else 0) (0 * 2 + m)
        * (fun x => if x = 0 then (2 : ℚ) else if x = 3 then 4 else 0) (m * 2 + 0)
      = if (0 : Nat) = 0 then 1 else 0) ∧
    (∑ m in Finset.range 2,
        genInverse 2 (fun i => if i = 0 then (2 : ℚ) else 4)
          (fun x => if x = 0 ∨ x = 3 then (1 : ℚ) else 0)
          (fun x => if x = 0 then (2 : ℚ) else if x = 3 then 4 else 0) (0 * 2 + m)
        * (fun x => if x = 0 then (2 : ℚ) else if x = 3 then 4 else 0) (m * 2 + 1)
      = if (0 : Nat) = 1 then 1 else 0) := by
  have h := genInverse_roundtrip 2 (fun i => if i = 0 then (2 : ℚ) else 4)
    (fun x => if x = 0 ∨ x = 3 then (1 : ℚ) else 0)
    (fun x => if x = 0 then (2 : ℚ) else if x = 3 then 4 else 0)
    (by
      intro i i' hi hi'
      interval_cases i <;> interval_cases i' <;> simp [Finset.sum_range_succ])
    (by
      intro j k hj hk
      interval_cases j <;> interval_cases k <;> simp [Finset.sum_range_succ])
    (by
      intro i hi
      interval_cases i <;> norm_num)
  exact ⟨h.2.2 0 0 (by decide) (by decide), h.2.2 0 1 (by decide) (by decide)⟩

/-! ## Variation and correlation -/

theorem rscaleScan_spec {α : Type*} [LinearOrderedField α] (sqrt : α → α) (P : Nat)
    (hP : 1 ≤ P) (inv : Nat → α) (rscale0 : α) :
    (∀ i, i < P → diagRoot sqrt P inv i ≤ rscaleScan sqrt P inv rscale0) ∧
    (∃ i, i < P ∧ rscaleScan sqrt P inv rscale0 = diagRoot sqrt P inv i) := by
  have key := forRange_inv
    (fun n (s : α) => n = 0 ∨
      ((∀ i, i < n → diagRoot sqrt P inv i ≤ s) ∧ (∃ i, i < n ∧ s = diagRoot sqrt P inv i)))
    0 P (Nat.zero_le _)
    (fun i rscale => if i = 0 ∨ diagRoot sqrt P inv i > rscale then diagRoot sqrt P inv i
      else rscale) rscale0 (Or.inl rfl) ?_
  · rcases key with h | h
    · omega
    · exact h
  · intro n s _ _ hinv
    right
    beta_reduce
    by_cases hc : n = 0 ∨ diagRoot sqrt P inv n > s
    · rw [if_pos hc]
      refine ⟨?_, n, Nat.lt_succ_self n, rfl⟩
      intro i hi
      rcases Nat.lt_succ_iff_lt_or_eq.mp hi with hlt | heq
      · rcases hinv with h0 | ⟨h1, -⟩
        · omega
        · rcases hc with h0 | hgt
          · omega
          · exact le_of_lt (lt_of_le_of_lt (h1 i hlt) hgt)
      · rw [heq]
    · rw [if_neg hc]
      push_neg at hc
      rcases hinv with h0 | ⟨h1, i, hi, e⟩
      · exact absurd h0 hc.1
      · refine ⟨?_, i, Nat.lt_succ_of_lt hi, e⟩
        intro m hm
        rcases Nat.lt_succ_iff_lt_or_eq.mp hm with hlt | heq
        · exact h1 m hlt
        · rw [heq]
          exact hc.2

theorem diagRoot_real (P : Nat) (inv : Nat → ℝ) (i : Nat) :
    diagRoot Real.sqrt P inv i = Real.sqrt (max (inv (i * P + i)) 0) := by
  unfold diagRoot
  split_ifs with h
  · rw [max_eq_left (le_of_lt h)]
  · rw [max_eq_right (not_lt.mp h), Real.sqrt_zero]

/-- C9: with `rscale` the value left by the scaling loop, `rscale` is the
largest of the values `sqrt (max (inv[j][j], 0))`; the variation printed for
parameter `j` is that value divided by `rscale`, and the division is only
carried out with a positive `rscale`.  If some `inv[j][j]` is positive, every
variation lies in `[0, 1]` and one of them is exactly 1; if none is, every
variation is 0 and nothing is divided by zero. -/
theorem variation_scaled (nparams : Nat) (hP : 1 ≤ nparams) (inv : Nat → ℝ) (rscale0 : ℝ) :
    (∀ j, j < nparams → Real.sqrt (max (inv (j * nparams + j)) 0)
        ≤ rscaleScan Real.sqrt nparams inv rscale0) ∧
    (∃ j, j < nparams ∧ rscaleScan Real.sqrt nparams inv rscale0
        = Real.sqrt (max (inv (j * nparams + j)) 0)) ∧
    (∀ j, j < nparams → 0 < inv (j * nparams + j) →
      0 < rscaleScan Real.sqrt nparams inv rscale0) ∧
    (∀ j, j < nparams → variation Real.sqrt nparams inv rscale0 j
        = some (Real.sqrt (max (inv (j * nparams + j)) 0)
            / rscaleScan Real.sqrt nparams inv rscale0)) ∧
    ((∃ j, j < nparams ∧ 0 < inv (j * nparams + j)) →
      (∀ j, j < nparams → ∃ v, variation Real.sqrt nparams inv rscale0 j = some v
        ∧ 0 ≤ v ∧ v ≤ 1) ∧
      (∃ j, j < nparams ∧ variation Real.sqrt nparams inv rscale0 j = some 1)) ∧
    ((∀ j, j < nparams → inv (j * nparams + j) ≤ 0) →
      ∀ j, j < nparams → variation Real.sqrt nparams inv rscale0 j = some 0) := by
  obtain ⟨hmax, jmax, hjmax, hattain⟩ := rscaleScan_spec Real.sqrt nparams hP inv rscale0
  simp only [diagRoot_real] at hmax hattain
  have hposR : ∀ j, j < nparams → 0 < inv (j * nparams + j) →
      0 < rscaleScan Real.sqrt nparams inv rscale0 := by
    intro j hj hpos
    have h1 := hmax j hj
    rw [max_eq_left (le_of_lt hpos)] at h1
    exact lt_of_lt_of_le (Real.sqrt_pos.mpr hpos) h1
  have hval : ∀ j, j < nparams → variation Real.sqrt nparams inv rscale0 j
      = some (Real.sqrt (max (inv (j * nparams + j)) 0)
          / rscaleScan Real.sqrt nparams inv rscale0) := by
    intro j hj
    unfold variation checkedDiv
    by_cases hpos : inv (j * nparams + j) > 0
    · rw [if_pos hpos, if_neg (ne_of_gt (hposR j hj hpos)), max_eq_left (le_of_lt hpos)]
    · rw [if_neg hpos, max_eq_right (not_lt.mp hpos), Real.sqrt_zero, zero_div]
  refine ⟨hmax, ⟨jmax, hjmax, hattain⟩, hposR, hval, ?_, ?_⟩
  · rintro ⟨j0, hj0, hpos0⟩
    have hR := hposR j0 hj0 hpos0
    constructor
    · intro j hj
      refine ⟨_, hval j hj, div_nonneg (Real.sqrt_nonneg _) (le_of_lt hR), ?_⟩
      rw [div_le_one hR]
      exact hmax j hj
    · refine ⟨jmax, hjmax, ?_⟩
      rw [hval jmax hjmax, ← hattain, div_self (ne_of_gt hR)]
  · intro hall j hj
    rw [hval j hj, max_eq_right (hall j hj), Real.sqrt_zero, zero_div]

/-- Witness for C9: two parameters, `inv` with rows `4 0` and `0 1`. -/
theorem variation_scaled_witness :
    ∃ j, j < 2 ∧ rscaleScan Real.sqrt 2 (fun x => [4, 0, 0, 1].getD x (0 : ℝ)) 0
        = Real.sqrt (max ((fun x => [4, 0, 0, 1].getD x (0 : ℝ)) (j * 2 + j)) 0) :=
  (variation_scaled 2 (by decide) (fun x => [4, 0, 0, 1].getD x (0 : ℝ)) 0).2.1

theorem clamp_eq (x : ℝ) :
    (if (if x > 1 then 1 else x) < -1 then -1 else (if x > 1 then 1 else x))
      = max (-1) (min 1 x) := by
  by_cases h1 : x > 1
  · rw [if_pos h1, min_eq_left (le_of_lt h1), if_neg (by norm_num), max_eq_right (by norm_num)]
  · rw [if_neg h1, min_eq_right (not_lt.mp h1)]
    by_cases h2 : x < -1
    · rw [if_pos h2, max_eq_left (le_of_lt h2)]
    · rw [if_neg h2, max_eq_right (not_lt.mp h2)]

/-- C10: for a parameter with `inv[i][i] > 0` the diagonal correlation is
exactly 1; an entry is undetermined exactly when one of its two diagonals is
not positive; and every numeric entry is
`inv[i][k] / (sqrt inv[i][i] * sqrt inv[k][k])` clamped to `[-1, 1]`, so it
lies in `[-1, 1]`. -/
theorem correlation_unit_diag_and_range (nparams : Nat) (inv : Nat → ℝ) :
    (∀ i, 0 < inv (i * nparams + i) → correlation Real.sqrt nparams inv i i = some 1) ∧
    (∀ i k, correlation Real.sqrt nparams inv i k = none
      ↔ (inv (i * nparams + i) ≤ 0 ∨ inv (k * nparams + k) ≤ 0)) ∧
    (∀ i k v, correlation Real.sqrt nparams inv i k = some v →
      v = max (-1) (min 1 (inv (i * nparams + k)
            / (Real.sqrt (inv (i * nparams + i)) * Real.sqrt (inv (k * nparams + k)))))
      ∧ -1 ≤ v ∧ v ≤ 1) := by
  have hprod : ∀ i k, (diagRoot Real.sqrt nparams inv i * diagRoot Real.sqrt nparams inv k > 0)
      ↔ (0 < inv (i * nparams + i) ∧ 0 < inv (k * nparams + k)) := by
    intro i k
    unfold diagRoot
    by_cases hi : inv (i * nparams + i) > 0
    · by_cases hk : inv (k * nparams + k) > 0
      · rw [if_pos hi, if_pos hk]
        exact ⟨fun _ => ⟨hi, hk⟩,
          fun _ => mul_pos (Real.sqrt_pos.mpr hi) (Real.sqrt_pos.mpr hk)⟩
      · rw [if_pos hi, if_neg hk, mul_zero]
        exact ⟨fun h => absurd h (lt_irrefl _), fun h => absurd h.2 hk⟩
    · rw [if_neg hi, zero_mul]
      exact ⟨fun h => absurd h (lt_irrefl _), fun h => absurd h.1 hi⟩
  have hsome : ∀ i k, 0 < inv (i * nparams + i) → 0 < inv (k * nparams + k) →
      correlation Real.sqrt nparams inv i k
        = some (max (-1) (min 1 (inv (i * nparams + k)
            / (Real.sqrt (inv (i * nparams + i)) * Real.sqrt (inv (k * nparams + k)))))) := by
    intro i k hi hk
    have hp := (hprod i k).mpr ⟨hi, hk⟩
    unfold correlation
    dsimp only
    rw [if_pos hp, clamp_eq]
    unfold diagRoot
    rw [if_pos hi, if_pos hk]
  have hnone : ∀ i k, (inv (i * nparams + i) ≤ 0 ∨ inv (k * nparams + k) ≤ 0) →
      correlation Real.sqrt nparams inv i k = none := by
    intro i k h
    have hp : ¬ (diagRoot Real.sqrt nparams inv i * diagRoot Real.sqrt nparams inv k > 0) := by
      rw [hprod i k]
      rintro ⟨h1, h2⟩
      rcases h with h | h
      · exact absurd h1 (not_lt.mpr h)
      · exact absurd h2 (not_lt.mpr h)
    unfold correlation
    dsimp only
    rw [if_neg hp]
  refine ⟨?_, ?_, ?_⟩
  · intro i hi
    rw [hsome i i hi hi, Real.mul_self_sqrt (le_of_lt hi), div_self (ne_of_gt hi)]
    norm_num
  · intro i k
    constructor
    · intro h
      by_contra hc
      push_neg at hc
      rw [hsome i k hc.1 hc.2] at h
      exact Option.some_ne_none _ h
    · exact hnone i k
  · intro i k v hv
    by_cases hc : 0 < inv (i * nparams + i) ∧ 0 < inv (k * nparams + k)
    · rw [hsome i k hc.1 hc.2] at hv
      have e := Option.some.inj hv
      refine ⟨e.symm, ?_, ?_⟩
      · rw [← e]
        exact le_max_left _ _
      · rw [← e]
        exact max_le (by norm_num) (min_le_left _ _)
    · have : inv (i * nparams + i) ≤ 0 ∨ inv (k * nparams + k) ≤ 0 := by
        by_contra hn
        push_neg at hn
        exact hc hn
      rw [hnone i k this] at hv
      exact absurd hv (Option.noConfusion)

/-! ## Rows cleared by the regularization -/

theorem regularize_entry_zero (P : Nat) (h : Nat → ℝ) (hs : IsSymm P h) (j k : Nat)
    (hj : j < P) (hk : k < P) (hd : h (j * P + j) < 1e-10) :
    regularize Real.sqrt P h (j * P + k) = 0 := by
  have hD := diagRepair_symm P h hs
  have hjj : diagRepair P h (j * P + j) = 0 := by
    rw [diagRepair_apply P h j j hj hj, min_self, if_pos hd]
  unfold regularize
  rw [offDiagClamp_apply Real.sqrt P _ hD j k hj hk]
  by_cases hjk : j ≠ k
  · rw [if_pos hjk]
    have hlim : clampLimit Real.sqrt P (diagRepair P h) j k = 0 := by
      unfold clampLimit
      rcases le_total j k with hle | hle
      · rw [min_eq_left hle, hjj, zero_mul, Real.sqrt_zero, mul_zero]
      · rw [max_eq_left hle, hjj, mul_zero, Real.sqrt_zero, mul_zero]
    have := clampVal_abs_le (clampLimit Real.sqrt P (diagRepair P h) j k)
      (diagRepair P h (j * P + k)) (le_of_eq hlim.symm)
    rw [hlim] at this
    rw [hlim]
    exact abs_nonpos_iff.mp this
  · rw [if_neg hjk]
    push_neg at hjk
    rw [← hjk]
    exact hjj

/-- C16: after both regularization passes of a symmetric Hessian, every entry
of row `j` and of column `j` is zero for each `j` whose diagonal was below
`1.e-10`; pass 1 alone clears the entries with `k ≥ j` and leaves an entry
with `k < j` as it was unless the diagonal of `k` is itself below `1.e-10`;
and every diagonal of the result is zero or at least `1.e-10`. -/
theorem regularize_zeroes_row_and_column (nparams : Nat) (h : Nat → ℝ)
    (hs : IsSymm nparams h) (j : Nat) (hj : j < nparams)
    (hd : h (j * nparams + j) < 1e-10) :
    (∀ k, k < nparams →
      regularize Real.sqrt nparams h (j * nparams + k) = 0 ∧
      regularize Real.sqrt nparams h (k * nparams + j) = 0) ∧
    (∀ k, j ≤ k → k < nparams →
      diagRepair nparams h (j * nparams + k) = 0 ∧
      diagRepair nparams h (k * nparams + j) = 0) ∧
    (∀ k, k < j →
      diagRepair nparams h (j * nparams + k)
        = if h (k * nparams + k) < 1e-10 then 0 else h (j * nparams + k)) ∧
    (∀ m, m < nparams →
      regularize Real.sqrt nparams h (m * nparams + m) = 0
        ∨ 1e-10 ≤ regularize Real.sqrt nparams h (m * nparams + m)) := by
  have hD := diagRepair_symm nparams h hs
  have hR := offDiagClamp_symm Real.sqrt nparams _ hD
  refine ⟨?_, ?_, ?_, ?_⟩
  · intro k hk
    have h1 := regularize_entry_zero nparams h hs j k hj hk hd
    refine ⟨h1, ?_⟩
    have h2 := hR k j hk hj
    unfold regularize at h1 ⊢
    rw [h2]
    exact h1
  · intro k hjk hk
    rw [diagRepair_apply nparams h j k hj hk, diagRepair_apply nparams h k j hk hj,
      min_eq_left hjk, min_eq_right hjk, if_pos hd, if_pos hd]
    exact ⟨rfl, rfl⟩
  · intro k hkj
    rw [diagRepair_apply nparams h j k hj (by omega), min_eq_right (le_of_lt hkj)]
  · intro m hm
    unfold regularize
    rw [offDiagClamp_apply Real.sqrt nparams _ hD m m hm hm, if_neg (by simp)]
    exact diagRepair_diag nparams h m hm

theorem isSymm_saddle : IsSymm 2 (fun x => [1, 5, 5, -1].getD x (0 : ℝ)) := by
  intro j k hj hk
  interval_cases j <;> interval_cases k <;> rfl

/-- Witness for C16: the matrix with rows `1 5` and `5 -1`, `j = 1`. -/
theorem regularize_zeroes_row_and_column_witness :
    regularize Real.sqrt 2 (fun x => [1, 5, 5, -1].getD x (0 : ℝ)) (1 * 2 + 0) = 0 ∧
    regularize Real.sqrt 2 (fun x => [1, 5, 5, -1].getD x (0 : ℝ)) (0 * 2 + 1) = 0 :=
  (regularize_zeroes_row_and_column 2 (fun x => [1, 5, 5, -1].getD x (0 : ℝ)) isSymm_saddle
    1 (by decide) (by norm_num)).1 0 (by decide)

/-! ## Cauchy-Schwarz bound of the generalized inverse -/

theorem invSum_weighted (P : Nat) (evals evect : Nat → ℝ) (j k : Nat) :
    invSum P evals evect j k
      = ∑ i in Finset.range P,
          (evect (j * P + i) * (if evals i > 1e-8 then (Real.sqrt (evals i))⁻¹ else 0))
          * (evect (k * P + i) * (if evals i > 1e-8 then (Real.sqrt (evals i))⁻¹ else 0)) := by
  rw [invSum_eq]
  apply Finset.sum_congr rfl
  intro i _
  by_cases hi : evals i > 1e-8
  · have hpos : (0 : ℝ) < evals i := lt_trans (by norm_num) hi
    rw [if_pos hi, if_pos hi]
    have hs : Real.sqrt (evals i) * Real.sqrt (evals i) = evals i :=
      Real.mul_self_sqrt (le_of_lt hpos)
    have hne : Real.sqrt (evals i) ≠ 0 := ne_of_gt (Real.sqrt_pos.mpr hpos)
    have hne' : evals i ≠ 0 := ne_of_gt hpos
    field_simp
  · simp only [if_neg hi, mul_zero]

theorem invSum_sq_le (P : Nat) (evals evect : Nat → ℝ) (j k : Nat) :
    invSum P evals evect j k ^ 2 ≤ invSum P evals evect j j * invSum P evals evect k k := by
  rw [invSum_weighted P evals evect j k, invSum_weighted P evals evect j j,
    invSum_weighted P evals evect k k]
  have := Finset.sum_mul_sq_le_sq_mul_sq (Finset.range P)
    (fun i => evect (j * P + i) * (if evals i > 1e-8 then (Real.sqrt (evals i))⁻¹ else 0))
    (fun i => evect (k * P + i) * (if evals i > 1e-8 then (Real.sqrt (evals i))⁻¹ else 0))
  simp only [sq] at this ⊢
  exact this

theorem invSum_diag_nonneg (P : Nat) (evals evect : Nat → ℝ) (j : Nat) :
    0 ≤ invSum P evals evect j j := by
  rw [invSum_weighted]
  apply Finset.sum_nonneg
  intro i _
  exact mul_self_nonneg _

/-- C17: whatever `evect` and `evals` are, the generalized inverse has
non-negative diagonals and satisfies
`inv[j][k]^2 ≤ inv[j][j] * inv[k][k]`; hence every numeric correlation is
the plain quotient `inv[i][k] / (sqrt inv[i][i] * sqrt inv[k][k])`, which lies
in `[-1, 1]`: neither clamping test (`corr > 1.0`, `corr < -1.0`) holds. -/
theorem genInverse_cauchy_schwarz (nparams : Nat) (evals evect hessian : Nat → ℝ) :
    (∀ j, j < nparams → 0 ≤ genInverse nparams evals evect hessian (j * nparams + j)) ∧
    (∀ j k, j < nparams → k < nparams →
      genInverse nparams evals evect hessian (j * nparams + k) ^ 2
        ≤ genInverse nparams evals evect hessian (j * nparams + j)
          * genInverse nparams evals evect hessian (k * nparams + k)) ∧
    (∀ i k, i < nparams → k < nparams →
      0 < genInverse nparams evals evect hessian (i * nparams + i) →
      0 < genInverse nparams evals evect hessian (k * nparams + k) →
      ¬ (genInverse nparams evals evect hessian (i * nparams + k)
          / (Real.sqrt (genInverse nparams evals evect hessian (i * nparams + i))
            * Real.sqrt (genInverse nparams evals evect hessian (k * nparams + k))) > 1) ∧
      ¬ (genInverse nparams evals evect hessian (i * nparams + k)
          / (Real.sqrt (genInverse nparams evals evect hessian (i * nparams + i))
            * Real.sqrt (genInverse nparams evals evect hessian (k * nparams + k))) < -1) ∧
      correlation Real.sqrt nparams (genInverse nparams evals evect hessian) i k
        = some (genInverse nparams evals evect hessian (i * nparams + k)
          / (Real.sqrt (genInverse nparams evals evect hessian (i * nparams + i))
            * Real.sqrt (genInverse nparams evals evect hessian (k * nparams + k))))) := by
  have hdiag : ∀ j, j < nparams →
      0 ≤ genInverse nparams evals evect hessian (j * nparams + j) := by
    intro j hj
    rw [genInverse_apply nparams evals evect hessian j j hj hj]
    exact invSum_diag_nonneg nparams evals evect j
  have hcs : ∀ j k, j < nparams → k < nparams →
      genInverse nparams evals evect hessian (j * nparams + k) ^ 2
        ≤ genInverse nparams evals evect hessian (j * nparams + j)
          * genInverse nparams evals evect hessian (k * nparams + k) := by
    intro j k hj hk
    rw [genInverse_apply nparams evals evect hessian j k hj hk,
      genInverse_apply nparams evals evect hessian j j hj hj,
      genInverse_apply nparams evals evect hessian k k hk hk]
    exact invSum_sq_le nparams evals evect j k
  refine ⟨hdiag, hcs, ?_⟩
  intro i k hi hk hpi hpk
  generalize genInverse nparams evals evect hessian = inv at *
  have hsi := Real.sqrt_pos.mpr hpi
  have hsk := Real.sqrt_pos.mpr hpk
  have hden : 0 < Real.sqrt (inv (i * nparams + i)) * Real.sqrt (inv (k * nparams + k)) :=
    mul_pos hsi hsk
  have habs : |inv (i * nparams + k)|
      ≤ Real.sqrt (inv (i * nparams + i)) * Real.sqrt (inv (k * nparams + k)) := by
    rw [← Real.sqrt_mul (le_of_lt hpi), ← Real.sqrt_sq_eq_abs]
    exact Real.sqrt_le_sqrt (hcs i k hi hk)
  have hle : inv (i * nparams + k)
      / (Real.sqrt (inv (i * nparams + i)) * Real.sqrt (inv (k * nparams + k))) ≤ 1 := by
    rw [div_le_one hden]
    exact le_trans (le_abs_self _) habs
  have hge : -1 ≤ inv (i * nparams + k)
      / (Real.sqrt (inv (i * nparams + i)) * Real.sqrt (inv (k * nparams + k))) := by
    rw [le_div_iff₀ hden]
    have := neg_abs_le (inv (i * nparams + k))
    linarith
  refine ⟨not_lt.mpr hle, not_lt.mpr hge, ?_⟩
  have hroot : ∀ m, 0 < inv (m * nparams + m) →
      diagRoot Real.sqrt nparams inv m = Real.sqrt (inv (m * nparams + m)) := by
    intro m hm
    unfold diagRoot
    rw [if_pos hm]
  unfold correlation
  dsimp only
  rw [hroot i hpi, hroot k hpk, if_pos hden, if_neg (not_lt.mpr hle), if_neg (not_lt.mpr hge)]

/-! ## Sensitivity directions -/

theorem scanDown_spec {α : Type*} [LinearOrderedField α] (evals : Nat → α) (n : Nat) :
    scanDown evals n ≤ n ∧
    (scanDown evals n ≠ 0 → 0 < evals (scanDown evals n)) ∧
    (∀ i, scanDown evals n < i → i ≤ n → evals i ≤ 0) := by
  induction n with
  | zero =>
    refine ⟨le_refl 0, fun h => absurd rfl h, ?_⟩
    intro i h1 h2
    simp only [scanDown] at h1
    omega
  | succ n ih =>
    by_cases hpos : evals (n + 1) > 0
    · have e : scanDown evals (n + 1) = n + 1 := by
        rw [scanDown, if_pos hpos]
      rw [e]
      refine ⟨le_refl _, fun _ => hpos, ?_⟩
      intro i h1 h2
      omega
    · have e : scanDown evals (n + 1) = scanDown evals n := by
        rw [scanDown, if_neg hpos]
      rw [e]
      obtain ⟨h1, h2, h3⟩ := ih
      refine ⟨Nat.le_succ_of_le h1, h2, ?_⟩
      intro i hi hin
      rcases Nat.lt_succ_iff_lt_or_eq.mp (Nat.lt_succ_of_le hin) with hlt | heq
      · exact h3 i hi (Nat.lt_succ_iff.mp hlt)
      · rw [heq]
        exact not_lt.mp hpos

theorem sensitivityIndex_spec {α : Type*} [LinearOrderedField α] (P : Nat) (evals : Nat → α)
    (hk : sensitivityIndex P evals ≠ 0) :
    1 ≤ sensitivityIndex P evals ∧ sensitivityIndex P evals < P ∧
    0 < evals (sensitivityIndex P evals) ∧
    (∀ i, sensitivityIndex P evals < i → i < P → evals i ≤ 0) := by
  obtain ⟨h1, h2, h3⟩ := scanDown_spec evals (P - 1)
  unfold sensitivityIndex at hk ⊢
  refine ⟨Nat.one_le_iff_ne_zero.mpr hk, by omega, h2 hk, ?_⟩
  intro i hi hiP
  exact h3 i hi (by omega)

theorem sensitivityIndex_eq_zero_iff {α : Type*} [LinearOrderedField α] (P : Nat)
    (evals : Nat → α) :
    sensitivityIndex P evals = 0 ↔ ∀ i, 1 ≤ i → i < P → evals i ≤ 0 := by
  constructor
  · intro h0 i h1 hiP
    have := (scanDown_spec evals (P - 1)).2.2 i
    unfold sensitivityIndex at h0
    rw [h0] at this
    exact this (by omega) (by omega)
  · intro hall
    by_contra hne
    obtain ⟨h1, h2, h3, -⟩ := sensitivityIndex_spec P evals hne
    exact absurd h3 (not_lt.mpr (hall _ h1 h2))

theorem sensitivityTable_eq_some {α : Type*} [LinearOrderedField α] (P : Nat)
    (evals evect : Nat → α) (t : Nat → Option α × Option α)
    (ht : sensitivityTable P evals evect = some t) :
    2 ≤ P ∧ sensitivityIndex P evals ≠ 0 ∧
    t = fun i =>
      (checkedDiv (evect (i * P)) (sensitivityScales P evect (sensitivityIndex P evals)).1,
       checkedDiv (evect (i * P + sensitivityIndex P evals))
        (sensitivityScales P evect (sensitivityIndex P evals)).2) := by
  unfold sensitivityTable at ht
  by_cases hP : P < 2
  · rw [if_pos hP] at ht
    exact absurd ht (Option.noConfusion)
  · rw [if_neg hP] at ht
    dsimp only at ht
    by_cases hk : sensitivityIndex P evals = 0
    · rw [if_pos hk] at ht
      exact absurd ht (Option.noConfusion)
    · rw [if_neg hk] at ht
      exact ⟨by omega, hk, (Option.some.inj ht).symm⟩

theorem sensitivityTable_eq_none_iff {α : Type*} [LinearOrderedField α] (P : Nat)
    (evals evect : Nat → α) :
    sensitivityTable P evals evect = none ↔ ∀ i, 1 ≤ i → i < P → evals i ≤ 0 := by
  unfold sensitivityTable
  by_cases hP : P < 2
  · rw [if_pos hP]
    refine ⟨fun _ i h1 h2 => ?_, fun _ => rfl⟩
    omega
  · rw [if_neg hP]
    dsimp only
    by_cases hk : sensitivityIndex P evals = 0
    · rw [if_pos hk]
      exact ⟨fun _ => (sensitivityIndex_eq_zero_iff P evals).mp hk, fun _ => rfl⟩
    · rw [if_neg hk]
      refine ⟨fun h => absurd h (Option.some_ne_none _), fun h => ?_⟩
      exact absurd ((sensitivityIndex_eq_zero_iff P evals).mpr h) hk

theorem sensitivityScales_spec {α : Type*} [LinearOrderedField α] (P : Nat) (evect : Nat → α)
    (k : Nat) :
    ((∀ i, i < P → |evect (i * P)| ≤ (sensitivityScales P evect k).1) ∧
      ((sensitivityScales P evect k).1 = 0
        ∨ ∃ i, i < P ∧ (sensitivityScales P evect k).1 = |evect (i * P)|)) ∧
    ((∀ i, i < P → |evect (i * P + k)| ≤ (sensitivityScales P evect k).2) ∧
      ((sensitivityScales P evect k).2 = 0
        ∨ ∃ i, i < P ∧ (sensitivityScales P evect k).2 = |evect (i * P + k)|)) := by
  refine forRange_inv
    (fun n (s : α × α) =>
      ((∀ i, i < n → |evect (i * P)| ≤ s.1) ∧
        (s.1 = 0 ∨ ∃ i, i < n ∧ s.1 = |evect (i * P)|)) ∧
      ((∀ i, i < n → |evect (i * P + k)| ≤ s.2) ∧
        (s.2 = 0 ∨ ∃ i, i < n ∧ s.2 = |evect (i * P + k)|)))
    0 P (Nat.zero_le _) _ (0, 0) ?_ ?_
  · refine ⟨⟨?_, Or.inl rfl⟩, ⟨?_, Or.inl rfl⟩⟩ <;>
    · intro i hi
      omega
  · intro n s _ _ hinv
    obtain ⟨⟨a1, a2⟩, ⟨b1, b2⟩⟩ := hinv
    dsimp only
    constructor
    · by_cases hc : |evect (n * P)| > s.1
      · rw [if_pos hc]
        refine ⟨?_, Or.inr ⟨n, Nat.lt_succ_self n, rfl⟩⟩
        intro i hi
        rcases Nat.lt_succ_iff_lt_or_eq.mp hi with hlt | heq
        · exact le_of_lt (lt_of_le_of_lt (a1 i hlt) hc)
        · rw [heq]
      · rw [if_neg hc]
        refine ⟨?_, ?_⟩
        · intro i hi
          rcases Nat.lt_succ_iff_lt_or_eq.mp hi with hlt | heq
          · exact a1 i hlt
          · rw [heq]
            exact not_lt.mp hc
        · rcases a2 with h0 | ⟨i, hi, e⟩
          · exact Or.inl h0
          · exact Or.inr ⟨i, Nat.lt_succ_of_lt hi, e⟩
    · by_cases hc : |evect (n * P + k)| > s.2
      · rw [if_pos hc]
        refine ⟨?_, Or.inr ⟨n, Nat.lt_succ_self n, rfl⟩⟩
        intro i hi
        rcases Nat.lt_succ_iff_lt_or_eq.mp hi with hlt | heq
        · exact le_of_lt (lt_of_le_of_lt (b1 i hlt) hc)
        · rw [heq]
      · rw [if_neg hc]
        refine ⟨?_, ?_⟩
        · intro i hi
          rcases Nat.lt_succ_iff_lt_or_eq.mp hi with hlt | heq
          · exact b1 i hlt
          · rw [heq]
            exact not_lt.mp hc
        · rcases b2 with h0 | ⟨i, hi, e⟩
          · exact Or.inl h0
          · exact Or.inr ⟨i, Nat.lt_succ_of_lt hi, e⟩

theorem positive_index_of_count {α : Type*} [LinearOrderedField α] (P : Nat) (evals : Nat → α)
    (hc : 2 ≤ positiveCount P evals) : ∃ i, 1 ≤ i ∧ i < P ∧ 0 < evals i := by
  unfold positiveCount at hc
  obtain ⟨b, hb, hne⟩ := Finset.exists_mem_ne (Nat.lt_of_succ_le hc) 0
  rw [Finset.mem_filter, Finset.mem_range] at hb
  exact ⟨b, Nat.one_le_iff_ne_zero.mpr hne, hb.1, hb.2⟩

theorem count_of_two_positive {α : Type*} [LinearOrderedField α] (P : Nat) (evals : Nat → α)
    (k : Nat) (hk0 : k ≠ 0) (hk : k < P) (h0 : 0 < evals 0) (h1 : 0 < evals k) :
    2 ≤ positiveCount P evals := by
  unfold positiveCount
  have hsub : ({0, k} : Finset Nat) ⊆ (Finset.range P).filter (fun i => 0 < evals i) := by
    intro x hx
    rw [Finset.mem_insert, Finset.mem_singleton] at hx
    rw [Finset.mem_filter, Finset.mem_range]
    rcases hx with rfl | rfl
    · exact ⟨by omega, h0⟩
    · exact ⟨hk, h1⟩
  have hcard : ({0, k} : Finset Nat).card = 2 := Finset.card_pair (Ne.symm hk0)
  rw [← hcard]
  exact Finset.card_le_card hsub

theorem sorted_le {α : Type*} [LinearOrderedField α] (P : Nat) (evals : Nat → α)
    (hsorted : ∀ i, i + 1 < P → evals (i + 1) ≤ evals i) (i j : Nat) (hij : i ≤ j)
    (hj : j < P) : evals j ≤ evals i := by
  induction j, hij using Nat.le_induction with
  | base => exact le_refl _
  | succ n hn ih => exact le_trans (hsorted n hj) (ih (by omega))

/-- C11, as stated, fails: for the eigenvalues `1, 3` the table is emitted
and the scan stops at `k = 1`, whose eigenvalue 3 is not the smallest
strictly positive one (index 0 holds 1). -/
theorem min_direction_not_smallest :
    (sensitivityTable 2 (fun i => [1, 3].getD i (0 : ℚ))
      (fun x => [1, 0, 0, 1].getD x (0 : ℚ))).isSome = true ∧
    sensitivityIndex 2 (fun i => [1, 3].getD i (0 : ℚ)) = 1 ∧
    ¬ IsSmallestPositive 2 (fun i => [1, 3].getD i (0 : ℚ))
        (sensitivityIndex 2 (fun i => [1, 3].getD i (0 : ℚ))) := by
  have hk : sensitivityIndex 2 (fun i => [1, 3].getD i (0 : ℚ)) = 1 := by
    norm_num [sensitivityIndex, scanDown]
  refine ⟨?_, hk, ?_⟩
  · unfold sensitivityTable
    rw [if_neg (by decide)]
    dsimp only
    rw [if_neg (by rw [hk]; decide)]
    rfl
  · rw [hk]
    rintro ⟨-, -, h3⟩
    have := h3 0 (by decide) (by norm_num)
    norm_num at this

/-- C11, amended: when the table is emitted, the column `k` used for the
minimum-sensitivity direction is the largest index with a strictly positive
eigenvalue: `1 ≤ k < nparams`, `evals[k] > 0` and `evals[i] ≤ 0` for every
`i > k`.  It is the index of the smallest strictly positive eigenvalue
whenever no lower index holds a smaller positive eigenvalue. -/
theorem min_direction_is_last_positive {α : Type*} [LinearOrderedField α] (nparams : Nat)
    (evals evect : Nat → α) (t : Nat → Option α × Option α)
    (ht : sensitivityTable nparams evals evect = some t) :
    1 ≤ sensitivityIndex nparams evals ∧ sensitivityIndex nparams evals < nparams ∧
    0 < evals (sensitivityIndex nparams evals) ∧
    (∀ i, sensitivityIndex nparams evals < i → i < nparams → evals i ≤ 0) ∧
    (∀ i, (t i).2 = checkedDiv (evect (i * nparams + sensitivityIndex nparams evals))
        (sensitivityScales nparams evect (sensitivityIndex nparams evals)).2) ∧
    ((∀ i, i < sensitivityIndex nparams evals → 0 < evals i →
        evals (sensitivityIndex nparams evals) ≤ evals i) →
      IsSmallestPositive nparams evals (sensitivityIndex nparams evals)) := by
  obtain ⟨-, hk, e⟩ := sensitivityTable_eq_some nparams evals evect t ht
  obtain ⟨h1, h2, h3, h4⟩ := sensitivityIndex_spec nparams evals hk
  refine ⟨h1, h2, h3, h4, ?_, ?_⟩
  · intro i
    rw [e]
  · intro hlow
    refine ⟨h2, h3, ?_⟩
    intro i hi hpos
    rcases Nat.lt_trichotomy i (sensitivityIndex nparams evals) with hlt | heq | hgt
    · exact hlow i hlt hpos
    · rw [heq]
    · exact absurd hpos (not_lt.mpr (h4 i hgt hi))

theorem table_of_three_one :
    sensitivityTable 2 (fun i => [3, 1].getD i (0 : ℚ)) (fun x => [1, 0, 0, 1].getD x (0 : ℚ))
      = some (fun i =>
          (checkedDiv ((fun x => [1, 0, 0, 1].getD x (0 : ℚ)) (i * 2))
            (sensitivityScales 2 (fun x => [1, 0, 0, 1].getD x (0 : ℚ)) 1).1,
           checkedDiv ((fun x => [1, 0, 0, 1].getD x (0 : ℚ)) (i * 2 + 1))
            (sensitivityScales 2 (fun x => [1, 0, 0, 1].getD x (0 : ℚ)) 1).2)) := by
  have hk : sensitivityIndex 2 (fun i => [3, 1].getD i (0 : ℚ)) = 1 := by
    norm_num [sensitivityIndex, scanDown]
  unfold sensitivityTable
  rw [if_neg (by decide)]
  dsimp only
  rw [if_neg (by rw [hk]; decide), hk]

/-- Witness for C11: eigenvalues `3, 1` with the identity as eigenvectors. -/
theorem min_direction_is_last_positive_witness :
    0 < (fun i => [3, 1].getD i (0 : ℚ))
      (sensitivityIndex 2 (fun i => [3, 1].getD i (0 : ℚ))) :=
  (min_direction_is_last_positive 2 (fun i => [3, 1].getD i (0 : ℚ))
    (fun x => [1, 0, 0, 1].getD x (0 : ℚ)) _ table_of_three_one).2.2.1

/-- C12, as stated, fails: for the eigenvalues `1, 3` with the identity as
eigenvectors the table is emitted, index 1 holds the largest eigenvalue, and
the `Max` column printed is not column 1: its first entry is 1, where column 1
has 0. -/
theorem max_direction_not_largest :
    ∃ t, sensitivityTable 2 (fun i => [1, 3].getD i (0 : ℚ))
        (fun x => [1, 0, 0, 1].getD x (0 : ℚ)) = some t ∧
      IsLargest 2 (fun i => [1, 3].getD i (0 : ℚ)) 1 ∧
      (t 0).1 = some 1 ∧
      ¬ ReportsMaxColumn 2 (fun x => [1, 0, 0, 1].getD x (0 : ℚ)) t 1 := by
  have hk : sensitivityIndex 2 (fun i => [1, 3].getD i (0 : ℚ)) = 1 := by
    norm_num [sensitivityIndex, scanDown]
  have hs : (sensitivityScales 2 (fun x => [1, 0, 0, 1].getD x (0 : ℚ)) 1).1 = 1 := by
    norm_num [sensitivityScales, forRange, forLoop]
  have ht : sensitivityTable 2 (fun i => [1, 3].getD i (0 : ℚ))
      (fun x => [1, 0, 0, 1].getD x (0 : ℚ))
      = some (fun i =>
          (checkedDiv ((fun x => [1, 0, 0, 1].getD x (0 : ℚ)) (i * 2))
            (sensitivityScales 2 (fun x => [1, 0, 0, 1].getD x (0 : ℚ)) 1).1,
           checkedDiv ((fun x => [1, 0, 0, 1].getD x (0 : ℚ)) (i * 2 + 1))
            (sensitivityScales 2 (fun x => [1, 0, 0, 1].getD x (0 : ℚ)) 1).2)) := by
    unfold sensitivityTable
    rw [if_neg (by decide)]
    dsimp only
    rw [if_neg (by rw [hk]; decide), hk]
  have h0 : checkedDiv ((fun x => [1, 0, 0, 1].getD x (0 : ℚ)) (0 * 2))
      (sensitivityScales 2 (fun x => [1, 0, 0, 1].getD x (0 : ℚ)) 1).1 = some 1 := by
    rw [hs]
    norm_num [checkedDiv]
  refine ⟨_, ht, ?_, h0, ?_⟩
  · refine ⟨by decide, ?_⟩
    intro i hi
    interval_cases i <;> norm_num
  · intro hrep
    obtain ⟨scale, hsc⟩ := hrep 0 (by decide)
    dsimp only at hsc
    rw [h0] at hsc
    unfold checkedDiv at hsc
    by_cases hz : scale = 0
    · rw [if_pos hz] at hsc
      exact Option.noConfusion hsc
    · rw [if_neg hz] at hsc
      have := Option.some.inj hsc
      norm_num at this

/-- C12, amended: when the table is emitted, the `Max` column is always
column 0 of `evect`, whatever the eigenvalues: the entry of parameter `i` is
`evect[i*nparams] / lscale` with `lscale` the largest `|evect[i*nparams]|`
(or 0).  It is the column of the overall largest eigenvalue whenever
`evals[0] ≥ evals[i]` for every `i`. -/
theorem max_direction_is_column_zero {α : Type*} [LinearOrderedField α] (nparams : Nat)
    (evals evect : Nat → α) (t : Nat → Option α × Option α)
    (ht : sensitivityTable nparams evals evect = some t) :
    (∀ i, (t i).1 = checkedDiv (evect (i * nparams + 0))
        (sensitivityScales nparams evect (sensitivityIndex nparams evals)).1) ∧
    (∀ i, i < nparams → |evect (i * nparams + 0)|
        ≤ (sensitivityScales nparams evect (sensitivityIndex nparams evals)).1) ∧
    ((sensitivityScales nparams evect (sensitivityIndex nparams evals)).1 = 0
      ∨ ∃ i, i < nparams ∧
        (sensitivityScales nparams evect (sensitivityIndex nparams evals)).1
          = |evect (i * nparams + 0)|) ∧
    ReportsMaxColumn nparams evect t 0 ∧
    ((∀ i, i < nparams → evals i ≤ evals 0) → IsLargest nparams evals 0) := by
  obtain ⟨hP, -, e⟩ := sensitivityTable_eq_some nparams evals evect t ht
  obtain ⟨⟨a1, a2⟩, -⟩ :=
    sensitivityScales_spec nparams evect (sensitivityIndex nparams evals)
  have hcol : ∀ i, (t i).1 = checkedDiv (evect (i * nparams + 0))
      (sensitivityScales nparams evect (sensitivityIndex nparams evals)).1 := by
    intro i
    rw [e]
    rfl
  refine ⟨hcol, a1, a2, fun i _ => ⟨_, hcol i⟩, fun h => ⟨by omega, h⟩⟩

/-- Witness for C12: eigenvalues `3, 1` with the identity as eigenvectors. -/
theorem max_direction_is_column_zero_witness :
    ReportsMaxColumn 2 (fun x => [1, 0, 0, 1].getD x (0 : ℚ))
      (fun i =>
        (checkedDiv ((fun x => [1, 0, 0, 1].getD x (0 : ℚ)) (i * 2))
          (sensitivityScales 2 (fun x => [1, 0, 0, 1].getD x (0 : ℚ)) 1).1,
         checkedDiv ((fun x => [1, 0, 0, 1].getD x (0 : ℚ)) (i * 2 + 1))
          (sensitivityScales 2 (fun x => [1, 0, 0, 1].getD x (0 : ℚ)) 1).2)) 0 :=
  (max_direction_is_column_zero 2 (fun i => [3, 1].getD i (0 : ℚ))
    (fun x => [1, 0, 0, 1].getD x (0 : ℚ)) _ table_of_three_one).2.2.2.1

/-- C13, as stated, fails: of the eigenvalues `-1, 5` only one is strictly
positive, and the table is emitted all the same. -/
theorem table_emitted_with_one_positive :
    positiveCount 2 (fun i => [-1, 5].getD i (0 : ℚ)) = 1 ∧
    (sensitivityTable 2 (fun i => [-1, 5].getD i (0 : ℚ))
      (fun x => [1, 0, 0, 1].getD x (0 : ℚ))).isSome = true := by
  constructor
  · unfold positiveCount
    have e : (Finset.range 2).filter (fun i => 0 < (fun i => [-1, 5].getD i (0 : ℚ)) i)
        = {1} := by
      ext x
      rw [Finset.mem_filter, Finset.mem_range, Finset.mem_singleton]
      constructor
      · rintro ⟨hx, hpos⟩
        interval_cases x
        · norm_num at hpos
        · rfl
      · rintro rfl
        exact ⟨by decide, by norm_num⟩
    rw [e]
    rfl
  · have hk : sensitivityIndex 2 (fun i => [-1, 5].getD i (0 : ℚ)) = 1 := by
      norm_num [sensitivityIndex, scanDown]
    unfold sensitivityTable
    rw [if_neg (by decide)]
    dsimp only
    rw [if_neg (by rw [hk]; decide)]
    rfl

theorem table_emitted_of_count {α : Type*} [LinearOrderedField α] (nparams : Nat)
    (evals evect : Nat → α) (hc : 2 ≤ positiveCount nparams evals) :
    sensitivityTable nparams evals evect ≠ none := by
  intro hnone
  obtain ⟨i, h1, h2, h3⟩ := positive_index_of_count nparams evals hc
  have := (sensitivityTable_eq_none_iff nparams evals evect).mp hnone i h1 h2
  exact absurd h3 (not_lt.mpr this)

/-- C13, amended: the table is omitted if and only if no eigenvalue at an
index `1..nparams-1` is strictly positive (the eigenvalue at index 0 is never
looked at).  So the table is emitted whenever at least two eigenvalues are
strictly positive; it may also be emitted with a single positive one. -/
theorem table_omitted_iff {α : Type*} [LinearOrderedField α] (nparams : Nat)
    (evals evect : Nat → α) :
    (sensitivityTable nparams evals evect = none
      ↔ ∀ i, 1 ≤ i → i < nparams → evals i ≤ 0) ∧
    (2 ≤ positiveCount nparams evals → sensitivityTable nparams evals evect ≠ none) := by
  exact ⟨sensitivityTable_eq_none_iff nparams evals evect,
    table_emitted_of_count nparams evals evect⟩

/-- C18: if the eigenvalues are in non-increasing order, the table is emitted
if and only if at least two eigenvalues are strictly positive; when it is,
the index `k` found by the downward scan holds the smallest strictly positive
eigenvalue and is the `Min` column; index 0 holds the largest eigenvalue and
column 0 is the `Max` column. -/
theorem sensitivity_correct_when_sorted {α : Type*} [LinearOrderedField α] (nparams : Nat)
    (hP : 2 ≤ nparams) (evals evect : Nat → α)
    (hsorted : ∀ i, i + 1 < nparams → evals (i + 1) ≤ evals i) :
    ((sensitivityTable nparams evals evect).isSome = true
      ↔ 2 ≤ positiveCount nparams evals) ∧
    (∀ t, sensitivityTable nparams evals evect = some t →
      IsSmallestPositive nparams evals (sensitivityIndex nparams evals) ∧
      (∀ i, (t i).2 = checkedDiv (evect (i * nparams + sensitivityIndex nparams evals))
          (sensitivityScales nparams evect (sensitivityIndex nparams evals)).2) ∧
      (∀ i, (t i).1 = checkedDiv (evect (i * nparams + 0))
          (sensitivityScales nparams evect (sensitivityIndex nparams evals)).1)) ∧
    IsLargest nparams evals 0 := by
  have hmono := sorted_le nparams evals hsorted
  have hsmall : ∀ t, sensitivityTable nparams evals evect = some t →
      IsSmallestPositive nparams evals (sensitivityIndex nparams evals) := by
    intro t ht
    obtain ⟨-, hk, -⟩ := sensitivityTable_eq_some nparams evals evect t ht
    obtain ⟨h1, h2, h3, h4⟩ := sensitivityIndex_spec nparams evals hk
    refine ⟨h2, h3, ?_⟩
    intro i hi hpos
    rcases Nat.lt_or_ge (sensitivityIndex nparams evals) i with hgt | hle
    · exact absurd hpos (not_lt.mpr (h4 i hgt hi))
    · exact hmono i _ hle h2
  refine ⟨?_, ?_, ⟨by omega, fun i hi => hmono 0 i (Nat.zero_le i) hi⟩⟩
  · constructor
    · intro hsome
      obtain ⟨t, ht⟩ := Option.isSome_iff_exists.mp hsome
      obtain ⟨-, hk, -⟩ := sensitivityTable_eq_some nparams evals evect t ht
      obtain ⟨h1, h2, h3, -⟩ := sensitivityIndex_spec nparams evals hk
      exact count_of_two_positive nparams evals _ hk h2
        (lt_of_lt_of_le h3 (hmono 0 _ (Nat.zero_le _) h2)) h3
    · intro hc
      exact Option.isSome_iff_ne_none.mpr (table_emitted_of_count nparams evals evect hc)
  · intro t ht
    obtain ⟨-, -, e⟩ := sensitivityTable_eq_some nparams evals evect t ht
    refine ⟨hsmall t ht, ?_, ?_⟩
    · intro i
      rw [e]
    · intro i
      rw [e]
      rfl

/-- Witness for C18: eigenvalues `3, 1` with the identity as eigenvectors. -/
theorem sensitivity_correct_when_sorted_witness :
    IsLargest 2 (fun i => [3, 1].getD i (0 : ℚ)) 0 :=
  (sensitivity_correct_when_sorted 2 (by decide) (fun i => [3, 1].getD i (0 : ℚ))
    (fun x => [1, 0, 0, 1].getD x (0 : ℚ))
    (by
      intro i hi
      have h0 : i = 0 := by omega
      subst h0
      norm_num)).2.2

/-! ## Return status -/

theorem acquisitionFailed_iff (res : Resources) :
    acquisitionFailed res = true ↔
      (res.sptr = false ∨ res.sptr_ok = false ∨ res.coefs = false ∨ res.hessian = false
        ∨ res.evals = false ∨ res.evect = false ∨ res.work1 = false ∨ res.dwork = false
        ∨ res.iwork = false ∨ res.fp = false) := by
  unfold acquisitionFailed
  simp only [Bool.or_eq_true, Bool.not_eq_true', or_assoc]

theorem paramcor_status {α : Type*} [LinearOrderedField α] (nparams : Int) (res : Resources)
    (evals evect : Nat → α) :
    (paramcor nparams res evals evect).status
      = if nparams < 2 ∨ acquisitionFailed res = true then 1 else 0 := by
  unfold paramcor
  by_cases h1 : nparams < 2
  · rw [if_pos h1, if_pos (Or.inl h1)]
  · rw [if_neg h1]
    by_cases h2 : acquisitionFailed res = true
    · rw [if_pos h2, if_pos (Or.inr h2)]
    · have hne : ¬ (nparams < 2 ∨ acquisitionFailed res = true) := by
        rintro (h | h)
        · exact h1 h
        · exact h2 h
      rw [if_neg h2, if_neg hne]

/-- C14, as stated, fails: with one parameter `paramcor` returns 1, not the 0
that a completed analysis (two parameters, every acquisition successful)
returns. -/
theorem degenerate_input_returns_one :
    (paramcor 1 ⟨true, true, true, true, true, true, true, true, true, true⟩
      (fun i => [3, 1].getD i (0 : ℚ)) (fun x => [1, 0, 0, 1].getD x (0 : ℚ))).status = 1 ∧
    (paramcor 2 ⟨true, true, true, true, true, true, true, true, true, true⟩
      (fun i => [3, 1].getD i (0 : ℚ)) (fun x => [1, 0, 0, 1].getD x (0 : ℚ))).status = 0 := by
  constructor
  · rw [paramcor_status]
    rfl
  · rw [paramcor_status]
    rfl

/-- C14, amended: for every input with `nparams < 2`, `paramcor` returns the
status 1 and produces no part of the report: it returns before any buffer,
the solver or the report file is acquired. -/
theorem degenerate_input_is_noop {α : Type*} [LinearOrderedField α] (nparams : Int)
    (h : nparams < 2) (res : Resources) (evals evect : Nat → α) :
    paramcor nparams res evals evect = { status := 1, acquired := false, report := [] } := by
  unfold paramcor
  rw [if_pos h]

/-- Witness for C14: one parameter. -/
theorem degenerate_input_is_noop_witness :
    paramcor 1 ⟨true, true, true, true, true, true, true, true, true, true⟩
      (fun i => [3, 1].getD i (0 : ℚ)) (fun x => [1, 0, 0, 1].getD x (0 : ℚ))
      = { status := 1, acquired := false, report := [] } :=
  degenerate_input_is_noop 1 (by decide) _ _ _

/-- C15, as stated, fails: the status returned with one parameter equals the
status returned with two parameters when the allocation of `coefs` fails. -/
theorem noop_and_abort_same_status :
    (paramcor 1 ⟨true, true, true, true, true, true, true, true, true, true⟩
      (fun i => [3, 1].getD i (0 : ℚ)) (fun x => [1, 0, 0, 1].getD x (0 : ℚ))).status
    = (paramcor 2 ⟨true, true, false, true, true, true, true, true, true, true⟩
      (fun i => [3, 1].getD i (0 : ℚ)) (fun x => [1, 0, 0, 1].getD x (0 : ℚ))).status := by
  rw [paramcor_status, paramcor_status]
  rfl

/-- C15, amended: the return status is 1 when `nparams < 2` and also 1 when an
allocation, the solver construction or the opening of the report file fails;
it is 0 exactly for a completed analysis.  The status separates both cases
from a completed analysis, not from each other. -/
theorem status_one_for_noop_and_abort {α : Type*} [LinearOrderedField α] (nparams : Int)
    (res : Resources) (evals evect : Nat → α) :
    (nparams < 2 → (paramcor nparams res evals evect).status = 1) ∧
    (2 ≤ nparams →
      (res.sptr = false ∨ res.sptr_ok = false ∨ res.coefs = false ∨ res.hessian = false
        ∨ res.evals = false ∨ res.evect = false ∨ res.work1 = false ∨ res.dwork = false
        ∨ res.iwork = false ∨ res.fp = false) →
      (paramcor nparams res evals evect).status = 1) ∧
    ((paramcor nparams res evals evect).status = 0
      ↔ (2 ≤ nparams ∧ res.sptr = true ∧ res.sptr_ok = true ∧ res.coefs = true
          ∧ res.hessian = true ∧ res.evals = true ∧ res.evect = true ∧ res.work1 = true
          ∧ res.dwork = true ∧ res.iwork = true ∧ res.fp = true)) := by
  rw [paramcor_status]
  refine ⟨?_, ?_, ?_⟩
  · intro h
    rw [if_pos (Or.inl h)]
  · intro _ hfail
    rw [if_pos (Or.inr ((acquisitionFailed_iff res).mpr hfail))]
  · by_cases h1 : nparams < 2
    · rw [if_pos (Or.inl h1)]
      constructor
      · intro h
        exact absurd h (by decide)
      · rintro ⟨h2, -⟩
        omega
    · by_cases h2 : acquisitionFailed res = true
      · rw [if_pos (Or.inr h2)]
        constructor
        · intro h
          exact absurd h (by decide)
        · rintro ⟨-, a1, a2, a3, a4, a5, a6, a7, a8, a9, a10⟩
          have := (acquisitionFailed_iff res).mp h2
          simp [a1, a2, a3, a4, a5, a6, a7, a8, a9, a10] at this
      · have hne : ¬ (nparams < 2 ∨ acquisitionFailed res = true) := by
          rintro (h | h)
          · exact h1 h
          · exact h2 h
        rw [if_neg hne]
        refine ⟨fun _ => ?_, fun _ => rfl⟩
        have hnot := mt (acquisitionFailed_iff res).mpr h2
        push_neg at hnot
        simp only [ne_eq, Bool.not_eq_false] at hnot
        exact ⟨by omega, hnot⟩

end Paramcor
